import Mathlib

/-!
# Verification of the recipe-generation pipeline

A shallow embedding of the server-side request pipeline of the wp-recipe-ai
repository (`src/app/api/generate/route.ts`, the rate-limited variant):
per-IP fixed-window rate limiting, input validation, Markdown code-fence
sanitization of the model's raw text, JSON parsing with required-field and
non-empty-array validation, and the HTTP status mapping of the request
handler.

JavaScript strings are modelled as Lean `String`/`List Char` (lengths are
counted in characters), timestamps as `Int` milliseconds, and the shared
`Map` of the rate limiter as an association list.  `JSON.parse` is modelled
by an executable recursive-descent parser over the standard JSON grammar
(numbers are modelled as integers; fractional and exponent forms are
rejected, which no theorem below depends on).
-/

namespace WPRecipe

/-! ## Characters and whitespace -/

/-- The backtick character, written via its code point. -/
def tick : Char := Char.ofNat 96

/-- Model of the JavaScript `\s` character class (the whitespace characters
relevant here; the regexes in the source use `[\s\n]` and `.trim()`). -/
def isJsWs (c : Char) : Bool :=
  c = ' ' || c = '\t' || c = '\n' || c = '\r' ||
  c = '\x0b' || c = '\x0c' || c = '\xa0' || c = '\uFEFF'

/-- JSON whitespace accepted by `JSON.parse` between tokens. -/
def isJsonWs (c : Char) : Bool :=
  c = ' ' || c = '\t' || c = '\n' || c = '\r'

/-! ## ResponseSanitizer

The source cleans the model's raw text by
`text.replace(/```json\n?|\n?```/g, "").replace(/^[\s\n]*\{/, "{")
     .replace(/\}[\s\n]*$/, "}").trim()`.
-/

/-- The pattern of the fence regex's first alternative with its greedy
optional newline taken: three backticks, then `json`, then a newline. -/
def fenceJsonNl : List Char := [tick, tick, tick, 'j', 's', 'o', 'n', '\n']

/-- The first alternative without the optional newline: three backticks
then `json`. -/
def fenceJson : List Char := [tick, tick, tick, 'j', 's', 'o', 'n']

/-- The second alternative with its optional newline taken: a newline then
three backticks. -/
def nlFence : List Char := ['\n', tick, tick, tick]

/-- The second alternative with the optional newline empty: three bare
backticks. -/
def fenceTicks : List Char := [tick, tick, tick]

/-- One pass of the global replace `/```json\n?|\n?```/g → ""`: at each
position the alternatives are tried in regex order (longest optional parts
first); on a match the matched characters are dropped and scanning resumes
after the match, otherwise one character is emitted.  The fuel argument is
the number of remaining scan steps; each step consumes at least one
character, so fuel equal to the length of the list always suffices. -/
def stripFencesGo : Nat → List Char → List Char
  | 0, l => l
  | _ + 1, [] => []
  | fuel + 1, c :: cs =>
    if fenceJsonNl.isPrefixOf (c :: cs) then stripFencesGo fuel ((c :: cs).drop 8)
    else if fenceJson.isPrefixOf (c :: cs) then stripFencesGo fuel ((c :: cs).drop 7)
    else if nlFence.isPrefixOf (c :: cs) then stripFencesGo fuel ((c :: cs).drop 4)
    else if fenceTicks.isPrefixOf (c :: cs) then stripFencesGo fuel ((c :: cs).drop 3)
    else c :: stripFencesGo fuel cs

/-- The replace `text.replace(/```json\n?|\n?```/g, "")`. -/
def stripFences (l : List Char) : List Char := stripFencesGo l.length l

/-- The replace `text.replace(/^[\s\n]*\x7b/, ...)`: if the first non-whitespace character
is `{`, the leading whitespace run is dropped (the match `ws* {` is replaced
by `{`); otherwise the regex does not match and the text is unchanged. -/
def cleanStart (cs : List Char) : List Char :=
  match cs.dropWhile isJsWs with
  | '\x7b' :: tail => '\x7b' :: tail
  | _ => cs

/-- The replace `text.replace(/\x7d[\s\n]*$/, ...)`: if the last non-whitespace character
is `}`, the trailing whitespace run is dropped; otherwise unchanged. -/
def cleanEnd (cs : List Char) : List Char :=
  match cs.reverse.dropWhile isJsWs with
  | '\x7d' :: rest => ('\x7d' :: rest).reverse
  | _ => cs

/-- JavaScript `String.prototype.trim`: remove leading and trailing
whitespace. -/
def jsTrimChars (cs : List Char) : List Char :=
  ((cs.dropWhile isJsWs).reverse.dropWhile isJsWs).reverse

/-- The full sanitizer transform applied to the raw model text. -/
def cleanChars (cs : List Char) : List Char :=
  jsTrimChars (cleanEnd (cleanStart (stripFences cs)))

/-- The sanitizer on strings (`cleanText` in the source). -/
def cleanResponse (s : String) : String := String.mk (cleanChars s.data)

/-- JavaScript `trim` on strings. -/
def jsTrimStr (s : String) : String := String.mk (jsTrimChars s.data)

/-! ## RateLimiter (`isRateLimited` and its module-level state) -/

/-- The constant `RATE_LIMIT_WINDOW = 60 * 60 * 1000` (one hour in milliseconds). -/
def RATE_LIMIT_WINDOW : Int := 60 * 60 * 1000

/-- The constant `MAX_REQUESTS_PER_IP = 20`. -/
def MAX_REQUESTS_PER_IP : Nat := 20

/-- The constant `MAX_TOKENS = 30000` (maximum combined input length). -/
def MAX_TOKENS : Nat := 30000

/-- One value of the `ipRequests` map: `{ count, timestamp }`. -/
structure RLEntry where
  count : Nat
  timestamp : Int
deriving DecidableEq, Repr

/-- The `ipRequests : Map<string, {count, timestamp}>` module state,
modelled as an association list (insertion order preserved, keys unique
whenever built through `rlSet`). -/
abbrev RLState := List (String × RLEntry)

/-- Lookup `ipRequests.get(ip)`. -/
def rlGet : RLState → String → Option RLEntry
  | [], _ => none
  | (k, e) :: rest, ip => if k = ip then some e else rlGet rest ip

/-- Update `ipRequests.set(ip, e)` (also models the in-place `count++` mutation):
replaces the entry for `ip` if present, else appends it. -/
def rlSet : RLState → String → RLEntry → RLState
  | [], ip, e => [(ip, e)]
  | (k, e0) :: rest, ip, e =>
    if k = ip then (k, e) :: rest else (k, e0) :: rlSet rest ip e

/-- The check `isRateLimited(ip)` at current time `now`, returning the boolean result
together with the updated map state. -/
def isRateLimited (now : Int) (ip : String) (m : RLState) : Bool × RLState :=
  match rlGet m ip with
  | none => (false, rlSet m ip ⟨1, now⟩)
  | some e =>
    if now - e.timestamp > RATE_LIMIT_WINDOW then (false, rlSet m ip ⟨1, now⟩)
    else if e.count ≥ MAX_REQUESTS_PER_IP then (true, m)
    else (false, rlSet m ip ⟨e.count + 1, e.timestamp⟩)

/-- Sequential `isRateLimited` calls for one client key at the given times,
threading the map state; returns the list of results and the final state. -/
def rlRun (ip : String) : List Int → RLState → List Bool × RLState
  | [], st => ([], st)
  | t :: ts, st =>
    let r := isRateLimited t ip st
    let rest := rlRun ip ts r.2
    (r.1 :: rest.1, rest.2)

/-! ## InputValidator (`validateInput`) -/

/-- The check `validateInput(ingredients, steps)`: returns an error message, or
`none` when the input is acceptable. -/
def validateInput (ingredients steps : String) : Option String :=
  if jsTrimStr ingredients = "" || jsTrimStr steps = "" then
    some "Ingredients and steps are required."
  else if ingredients.length + steps.length > MAX_TOKENS then
    some "Input is too long. Please reduce the length of ingredients or steps."
  else
    none

/-! ## JSON values -/

/-- JSON values as produced by `JSON.parse` (numbers as integers; object
members in textual order). -/
inductive JsonVal where
  | str (s : String)
  | num (n : Int)
  | bool (b : Bool)
  | null
  | arr (elems : List JsonVal)
  | obj (members : List (String × JsonVal))

/-- Property lookup on an object's member list.  As in JavaScript objects
built by `JSON.parse`, a later duplicate key overrides an earlier one. -/
def jsLookup : List (String × JsonVal) → String → Option JsonVal
  | [], _ => none
  | (k, v) :: rest, key =>
    match jsLookup rest key with
    | some w => some w
    | none => if k = key then some v else none

/-- Property access `value[key]`: `undefined` (here `none`) on anything but
an object member that is present. -/
def jsIndex (v : JsonVal) (key : String) : Option JsonVal :=
  match v with
  | .obj members => jsLookup members key
  | _ => none

/-- JavaScript falsiness of `recipe[field]` as used in
`requiredFields.filter((field) => !recipe[field])`: `undefined` (a missing
member), `null`, `false`, `0` and `""` are falsy; arrays and objects are
always truthy. -/
def jsFalsy : Option JsonVal → Bool
  | none => true
  | some (.str s) => s = ""
  | some (.num n) => n = 0
  | some (.bool b) => !b
  | some .null => true
  | some (.arr _) => false
  | some (.obj _) => false

/-- The test `Array.isArray(v) && v.length > 0` for an accessed field. -/
def isNonEmptyArr : Option JsonVal → Bool
  | some (.arr (_ :: _)) => true
  | _ => false

/-! ## RecipeValidator (field and array checks after `JSON.parse`) -/

/-- The `requiredFields` list of the source, in order. -/
def requiredFields : List String :=
  ["name", "titleVariations", "servings", "prepTime", "cookTime",
   "ingredients", "instructions"]

/-- The failure kinds of the recipe format check, named as in the
specification's taxonomy.  The source throws `Error`s whose messages are
recovered by `recipeErrMessage`.  `nullRecipe` models the `TypeError`
thrown by `recipe[field]` when `JSON.parse` returned `null`. -/
inductive RecipeError where
  | malformedJson
  | nullRecipe
  | missingFields (fields : List String)
  | emptyRequiredList (field : String)
deriving DecidableEq, Repr

/-- Join `missingFields.join(", ")`. -/
def joinComma : List String → String
  | [] => ""
  | [x] => x
  | x :: y :: t => x ++ ", " ++ joinComma (y :: t)

/-- The message of the `Error` the source throws for each failure kind (for
`malformedJson` and `nullRecipe` the engine-supplied message is summarized,
which no theorem depends on). -/
def recipeErrMessage : RecipeError → String
  | .malformedJson => "Unexpected token in JSON"
  | .nullRecipe => "Cannot read properties of null"
  | .missingFields fields => "Missing required fields: " ++ joinComma fields
  | .emptyRequiredList field => field ++ " must be a non-empty array"

/-- The field and array checks run on the value returned by `JSON.parse`:
collect every required field whose value is falsy; if any, fail with the
full list; then require `titleVariations`, `ingredients` and `instructions`
to be non-empty arrays, in that order; on success return the parsed value
unchanged. -/
def validateRecipe : JsonVal → Except RecipeError JsonVal
  | .null => .error .nullRecipe
  | recipe =>
    let missing := requiredFields.filter (fun field => jsFalsy (jsIndex recipe field))
    if missing ≠ [] then .error (.missingFields missing)
    else if !isNonEmptyArr (jsIndex recipe "titleVariations") then
      .error (.emptyRequiredList "titleVariations")
    else if !isNonEmptyArr (jsIndex recipe "ingredients") then
      .error (.emptyRequiredList "ingredients")
    else if !isNonEmptyArr (jsIndex recipe "instructions") then
      .error (.emptyRequiredList "instructions")
    else .ok recipe

/-! ## A model of `JSON.parse`

An executable recursive-descent parser for JSON text.  Value nesting is
bounded by an explicit fuel argument so that every function is structurally
recursive; `jsonParse` supplies fuel exceeding the input length, which
always suffices since every nesting level consumes input. -/

/-- Skip JSON inter-token whitespace. -/
def skipWs (cs : List Char) : List Char := cs.dropWhile isJsonWs

/-- The numeric value of a hexadecimal digit. -/
def hexVal (c : Char) : Option Nat :=
  if '0' ≤ c ∧ c ≤ '9' then some (c.toNat - 48)
  else if 'a' ≤ c ∧ c ≤ 'f' then some (c.toNat - 87)
  else if 'A' ≤ c ∧ c ≤ 'F' then some (c.toNat - 55)
  else none

/-- Parse the body of a JSON string (after the opening quote) up to and
including the closing quote, decoding escape sequences; returns the decoded
characters and the rest of the input. -/
def parseStrChars : List Char → Option (List Char × List Char)
  | [] => none
  | '"' :: rest => some ([], rest)
  | '\\' :: rest =>
    match rest with
    | '"' :: r => (parseStrChars r).map (fun p => ('"' :: p.1, p.2))
    | '\\' :: r => (parseStrChars r).map (fun p => ('\\' :: p.1, p.2))
    | '/' :: r => (parseStrChars r).map (fun p => ('/' :: p.1, p.2))
    | 'b' :: r => (parseStrChars r).map (fun p => ('\x08' :: p.1, p.2))
    | 'f' :: r => (parseStrChars r).map (fun p => ('\x0c' :: p.1, p.2))
    | 'n' :: r => (parseStrChars r).map (fun p => ('\n' :: p.1, p.2))
    | 'r' :: r => (parseStrChars r).map (fun p => ('\r' :: p.1, p.2))
    | 't' :: r => (parseStrChars r).map (fun p => ('\t' :: p.1, p.2))
    | 'u' :: h1 :: h2 :: h3 :: h4 :: r =>
      match hexVal h1, hexVal h2, hexVal h3, hexVal h4 with
      | some a, some b, some c, some d =>
        (parseStrChars r).map
          (fun p => (Char.ofNat (a * 4096 + b * 256 + c * 16 + d) :: p.1, p.2))
      | _, _, _, _ => none
    | _ => none
  | c :: rest =>
    if c.toNat < 32 then none
    else (parseStrChars rest).map (fun p => (c :: p.1, p.2))

/-- The numeric value of a digit run. -/
def digitsToNat (ds : List Char) : Nat :=
  ds.foldl (fun acc c => acc * 10 + (c.toNat - 48)) 0

/-- Parse an unsigned JSON integer; fractional or exponent forms are not
modelled and fail. -/
def parseNumTail (cs : List Char) : Option (Nat × List Char) :=
  let ds := cs.takeWhile Char.isDigit
  let rest := cs.dropWhile Char.isDigit
  if ds = [] then none
  else
    match rest with
    | '.' :: _ => none
    | 'e' :: _ => none
    | 'E' :: _ => none
    | _ => some (digitsToNat ds, rest)

/-- The element loop of an array literal: repeatedly parse a value with `p`,
then a `,` to continue or a `]` to finish.  `acc` holds the elements parsed
so far, in reverse. -/
def parseElems (p : List Char → Option (JsonVal × List Char)) :
    Nat → List JsonVal → List Char → Option (List JsonVal × List Char)
  | 0, _, _ => none
  | fuel + 1, acc, cs =>
    match p cs with
    | none => none
    | some (v, rest) =>
      match skipWs rest with
      | ',' :: r2 => parseElems p fuel (v :: acc) r2
      | ']' :: r2 => some ((v :: acc).reverse, r2)
      | _ => none

/-- The member loop of an object literal: a quoted key, `:`, a value parsed
with `p`, then `,` to continue or a closing brace to finish. -/
def parseMembers (p : List Char → Option (JsonVal × List Char)) :
    Nat → List (String × JsonVal) → List Char →
    Option (List (String × JsonVal) × List Char)
  | 0, _, _ => none
  | fuel + 1, acc, cs =>
    match skipWs cs with
    | '"' :: rest =>
      match parseStrChars rest with
      | none => none
      | some (kcs, r2) =>
        match skipWs r2 with
        | ':' :: r3 =>
          match p r3 with
          | none => none
          | some (v, r4) =>
            match skipWs r4 with
            | ',' :: r5 => parseMembers p fuel ((String.mk kcs, v) :: acc) r5
            | '\x7d' :: r5 => some (((String.mk kcs, v) :: acc).reverse, r5)
            | _ => none
        | _ => none
    | _ => none

/-- Parse one JSON value from the front of the input, given a parser `p`
for strictly deeper values; returns the value and the rest of the input. -/
def parseValStep (p : List Char → Option (JsonVal × List Char))
    (cs : List Char) : Option (JsonVal × List Char) :=
  match skipWs cs with
  | '"' :: rest => (parseStrChars rest).map (fun q => (JsonVal.str (String.mk q.1), q.2))
  | '[' :: rest =>
    (match skipWs rest with
     | ']' :: r2 => some (JsonVal.arr [], r2)
     | _ => (parseElems p (rest.length + 1) [] rest).map (fun q => (JsonVal.arr q.1, q.2)))
  | '\x7b' :: rest =>
    (match skipWs rest with
     | '\x7d' :: r2 => some (JsonVal.obj [], r2)
     | _ => (parseMembers p (rest.length + 1) [] rest).map (fun q => (JsonVal.obj q.1, q.2)))
  | 't' :: 'r' :: 'u' :: 'e' :: rest => some (JsonVal.bool true, rest)
  | 'f' :: 'a' :: 'l' :: 's' :: 'e' :: rest => some (JsonVal.bool false, rest)
  | 'n' :: 'u' :: 'l' :: 'l' :: rest => some (JsonVal.null, rest)
  | '-' :: rest => (parseNumTail rest).map (fun q => (JsonVal.num (-(q.1 : Int)), q.2))
  | cs' => (parseNumTail cs').map (fun q => (JsonVal.num (q.1 : Int), q.2))

/-- Parse one JSON value, with fuel bounding the nesting depth. -/
def parseVal : Nat → List Char → Option (JsonVal × List Char)
  | 0, _ => none
  | fuel + 1, cs => parseValStep (parseVal fuel) cs

/-- Full `JSON.parse`: a single value followed only by whitespace. -/
def jsonParse (cs : List Char) : Option JsonVal :=
  match parseVal (cs.length + 1) cs with
  | some (v, rest) => if skipWs rest = [] then some v else none
  | none => none

/-- The RecipeValidator stage on the sanitized text: `JSON.parse`, then the
field and array checks; on success the parsed value is returned unchanged. -/
def recipeValidator (s : String) : Except RecipeError JsonVal :=
  match jsonParse s.data with
  | none => .error .malformedJson
  | some v => validateRecipe v

/-! ## A model of `JSON.stringify` for recipe records -/

/-- The hexadecimal digit character for a value below 16 (lowercase, as
emitted by `JSON.stringify`). -/
def hexDigitChar (n : Nat) : Char :=
  if n < 10 then Char.ofNat (48 + n) else Char.ofNat (87 + n)

/-- How `JSON.stringify` emits one character inside a string literal:
quote and backslash get two-character escapes, the named control characters
get their short escapes, remaining control characters get `\u00XX`, and
every other character (backticks included) is emitted literally. -/
def escChar (c : Char) : List Char :=
  if c = '"' then ['\\', '"']
  else if c = '\\' then ['\\', '\\']
  else if c = '\x08' then ['\\', 'b']
  else if c = '\t' then ['\\', 't']
  else if c = '\n' then ['\\', 'n']
  else if c = '\x0c' then ['\\', 'f']
  else if c = '\r' then ['\\', 'r']
  else if c.toNat < 32 then
    ['\\', 'u', '0', '0', hexDigitChar (c.toNat / 16), hexDigitChar (c.toNat % 16)]
  else [c]

/-- Serialization of a string by `JSON.stringify`: a quoted, escaped literal. -/
def serStr (s : String) : List Char :=
  '"' :: (s.data.flatMap escChar ++ ['"'])

/-- The elements of a serialized string array, including the closing
bracket: `JSON.stringify` puts no whitespace between tokens. -/
def serElems : List String → List Char
  | [] => [']']
  | [x] => serStr x ++ [']']
  | x :: y :: t => serStr x ++ ',' :: serElems (y :: t)

/-- Serialization of an array of strings by `JSON.stringify`. -/
def serStrList (xs : List String) : List Char := '[' :: serElems xs

/-- One `"key":value` object member followed by the given rest of the
object text. -/
def memberChars (key : String) (vtext rest : List Char) : List Char :=
  serStr key ++ ':' :: (vtext ++ rest)

/-! ## Recipe records -/

/-- A structured recipe as described by the prompt's schema: the seven
fields the validator requires. -/
structure Recipe where
  name : String
  titleVariations : List String
  servings : String
  prepTime : String
  cookTime : String
  ingredients : List String
  instructions : List String

/-- Serialization of a recipe record by `JSON.stringify`, fields in schema order. -/
def recipeJsonChars (r : Recipe) : List Char :=
  '\x7b' ::
    memberChars "name" (serStr r.name) (',' ::
      memberChars "titleVariations" (serStrList r.titleVariations) (',' ::
        memberChars "servings" (serStr r.servings) (',' ::
          memberChars "prepTime" (serStr r.prepTime) (',' ::
            memberChars "cookTime" (serStr r.cookTime) (',' ::
              memberChars "ingredients" (serStrList r.ingredients) (',' ::
                memberChars "instructions" (serStrList r.instructions)
                  ['\x7d']))))))

/-- The serialized recipe as a string. -/
def recipeJsonString (r : Recipe) : String := String.mk (recipeJsonChars r)

/-- The member text of the serialized recipe object (everything after the
opening brace), with the closing brace and a trailing rest inlined; equal
to the tail of `recipeJsonChars r ++ rest`. -/
def recipeMembersText (r : Recipe) (rest : List Char) : List Char :=
  memberChars "name" (serStr r.name) (',' ::
    memberChars "titleVariations" (serStrList r.titleVariations) (',' ::
      memberChars "servings" (serStr r.servings) (',' ::
        memberChars "prepTime" (serStr r.prepTime) (',' ::
          memberChars "cookTime" (serStr r.cookTime) (',' ::
            memberChars "ingredients" (serStrList r.ingredients) (',' ::
              memberChars "instructions" (serStrList r.instructions)
                ('\x7d' :: rest)))))))

/-- The JSON value a recipe denotes (what `JSON.parse` recovers from
`recipeJsonChars`). -/
def recipeJsonVal (r : Recipe) : JsonVal :=
  .obj [("name", .str r.name),
        ("titleVariations", .arr (r.titleVariations.map .str)),
        ("servings", .str r.servings),
        ("prepTime", .str r.prepTime),
        ("cookTime", .str r.cookTime),
        ("ingredients", .arr (r.ingredients.map .str)),
        ("instructions", .arr (r.instructions.map .str))]

/-- A well-formed recipe: every scalar field non-empty (so it is truthy)
and every sequence field non-empty, as the validator requires. -/
def wellFormedRecipe (r : Recipe) : Prop :=
  r.name ≠ "" ∧ r.servings ≠ "" ∧ r.prepTime ≠ "" ∧ r.cookTime ≠ "" ∧
  r.titleVariations ≠ [] ∧ r.ingredients ≠ [] ∧ r.instructions ≠ []

instance (r : Recipe) : Decidable (wellFormedRecipe r) := by
  unfold wellFormedRecipe; infer_instance

/-- No string of the recipe contains a backtick character. -/
def recipeTickFree (r : Recipe) : Prop :=
  tick ∉ r.name.data ∧ tick ∉ r.servings.data ∧ tick ∉ r.prepTime.data ∧
  tick ∉ r.cookTime.data ∧ (∀ s ∈ r.titleVariations, tick ∉ s.data) ∧
  (∀ s ∈ r.ingredients, tick ∉ s.data) ∧ (∀ s ∈ r.instructions, tick ∉ s.data)

instance (r : Recipe) : Decidable (recipeTickFree r) := by
  unfold recipeTickFree; infer_instance

/-- Wrap text in Markdown code fences, the way the spec's round-trip
property describes the model's fenced reply. -/
def fenceWrap (s : String) : String :=
  String.mk (fenceJsonNl ++ s.data ++ nlFence)

/-! ## RequestHandler (`POST`) -/

/-- The body of an HTTP response: either the recipe JSON or an
`{ error: string }` object. -/
inductive RespBody where
  | recipeJson (v : JsonVal)
  | errText (msg : String)

/-- An HTTP response: status code and body. -/
structure ApiResponse where
  status : Nat
  body : RespBody

/-- The expression `forwardedFor.split(",")[0]`: the text before the first comma (the
whole string when there is no comma). -/
def firstCommaSeg (s : String) : String :=
  String.mk (s.data.takeWhile (fun c => c ≠ ','))

/-- The client key: the first entry of the `x-forwarded-for` header, or
`"unknown"` when the header is absent. -/
def ipFromHeader : Option String → String
  | some s => firstCommaSeg s
  | none => "unknown"

/-- The string value of a field of the request body, when the body is an
object and the field is present with a string value. -/
def strFieldOf (body : JsonVal) (key : String) : Option String :=
  match jsIndex body key with
  | some (.str s) => some s
  | _ => none

/-- The message of the `TypeError` raised by calling `.trim()` on a missing
or non-string field value (summarized to one constant; only the resulting
500 status matters to any theorem). -/
def trimTypeErrorMsg : String := ".trim is not a function"

/-- The call `validateInput(ingredients, steps)` on the destructured
JavaScript values.  The source evaluates `!ingredients.trim() ||
!steps.trim()` left to right with short-circuiting: `ingredients.trim()`
throws a `TypeError` when ingredients is absent or not a string; when it
trims to empty the disjunction is already true and `steps.trim()` is never
evaluated, so the EmptyInput message is returned even for an absent or
non-string steps; only otherwise is `steps.trim()` evaluated, throwing on
an absent or non-string steps; with both fields strings the call behaves
as `validateInput`.  A thrown `TypeError` is returned as `.error`. -/
def validateInputCall (ing stp : Option JsonVal) :
    Except String (Option String) :=
  match ing with
  | some (.str i) =>
    if jsTrimStr i = "" then .ok (some "Ingredients and steps are required.")
    else
      match stp with
      | some (.str s) => .ok (validateInput i s)
      | _ => .error trimTypeErrorMsg
  | _ => .error trimTypeErrorMsg

/-- The `POST` handler for one request: rate limiting on the client key,
then the input validation call (whose `.trim()` calls may throw into the
outer catch), then the external generation call (passed in as the oracle
`gen`, its prompt construction being irrelevant to the outcome), then
sanitization and the recipe format check.  Returns the response together
with the rate-limiter state after the request. -/
def handlePost (rl : RLState) (now : Int) (fwd : Option String)
    (body : JsonVal) (gen : Except String String) : ApiResponse × RLState :=
  let ip := ipFromHeader fwd
  let rc := isRateLimited now ip rl
  if rc.1 then
    (⟨429, .errText "Rate limit exceeded. Please try again later."⟩, rc.2)
  else
    match validateInputCall (jsIndex body "ingredients") (jsIndex body "steps") with
    | .error msg => (⟨500, .errText msg⟩, rc.2)
    | .ok (some msg) => (⟨400, .errText msg⟩, rc.2)
    | .ok none =>
      match gen with
      | .error msg => (⟨500, .errText msg⟩, rc.2)
      | .ok text =>
        match recipeValidator (cleanResponse text) with
        | .ok recipe => (⟨200, .recipeJson recipe⟩, rc.2)
        | .error e =>
          (⟨500, .errText ("Invalid recipe format: " ++ recipeErrMessage e)⟩, rc.2)

/-! ## Concrete test inputs used by the claims -/

/-- Counting of non-overlapping occurrences of three consecutive backticks
(fence delimiter marks), scanning left to right; fuelled like
`stripFencesGo`. -/
def countFenceMarksGo : Nat → List Char → Nat
  | 0, _ => 0
  | _ + 1, [] => 0
  | fuel + 1, c :: cs =>
    if fenceTicks.isPrefixOf (c :: cs) then
      1 + countFenceMarksGo fuel ((c :: cs).drop 3)
    else countFenceMarksGo fuel cs

/-- Number of fence delimiter marks in a text; a text with at most one pair
of Markdown fences has at most two. -/
def countFenceMarks (l : List Char) : Nat := countFenceMarksGo l.length l

/-- A text with two backticks, a newline, then five backticks: it contains
only one complete fence delimiter, yet sanitizing it once yields four
consecutive backticks (the two leading ones joined with the two left over),
which a second sanitization pass strips again. -/
def c6Input : List Char := [tick, tick, '\n', tick, tick, tick, tick, tick]

/-- The spec's example recipe. -/
def rPancakes : Recipe :=
  ⟨"Simple Pancakes", ["Original title"], "2", "5", "15",
   ["2 eggs", "1 cup flour"], ["Mix ingredients", "Bake until golden"]⟩

/-- A well-formed recipe whose name is three backticks: serializing and
fence-wrapping it makes the sanitizer strip the backticks out of the string
literal, so the round trip does not return it. -/
def rBacktick : Recipe :=
  ⟨String.mk [tick, tick, tick], ["t"], "2", "5", "5", ["i"], ["s"]⟩

/-- A 30001-character steps string for the oversized-input counterexample. -/
def bigSteps : String := String.mk (List.replicate 30001 'a')

/-- The parsed JSON of the claim C2 payload. -/
def c2Json : JsonVal := .obj [("name", .str "X"), ("servings", .str "2")]

/-- The parsed JSON of the claim C3 payload. -/
def c3Json : JsonVal :=
  .obj [("name", .str "X"), ("servings", .str "2"), ("prepTime", .str "5"),
        ("cookTime", .str "5"), ("ingredients", .arr []),
        ("instructions", .arr [.str "step"])]

/-- The claim C3 payload extended with a non-empty `titleVariations`. -/
def c3JsonTv : JsonVal :=
  .obj [("name", .str "X"), ("titleVariations", .arr [.str "t"]),
        ("servings", .str "2"), ("prepTime", .str "5"),
        ("cookTime", .str "5"), ("ingredients", .arr []),
        ("instructions", .arr [.str "step"])]

/-! ## Lemmas about the sanitizer -/

theorem mem_of_isPrefixOf {a : Char} {l₁ l₂ : List Char}
    (h : l₁.isPrefixOf l₂ = true) (ha : a ∈ l₁) : a ∈ l₂ :=
  (List.isPrefixOf_iff_prefix.mp h).subset ha

theorem stripFencesGo_of_tickFree :
    ∀ fuel l, tick ∉ l → stripFencesGo fuel l = l := by
  intro fuel
  induction fuel with
  | zero => intro l _; rfl
  | succ n ih =>
    intro l hl
    match l with
    | [] => rfl
    | c :: cs =>
      have h1 : ¬ (fenceJsonNl.isPrefixOf (c :: cs) = true) := fun h =>
        hl (mem_of_isPrefixOf h (by decide))
      have h2 : ¬ (fenceJson.isPrefixOf (c :: cs) = true) := fun h =>
        hl (mem_of_isPrefixOf h (by decide))
      have h3 : ¬ (nlFence.isPrefixOf (c :: cs) = true) := fun h =>
        hl (mem_of_isPrefixOf h (by decide))
      have h4 : ¬ (fenceTicks.isPrefixOf (c :: cs) = true) := fun h =>
        hl (mem_of_isPrefixOf h (by decide))
      have hcs : tick ∉ cs := fun h => hl (List.mem_cons_of_mem c h)
      simp only [stripFencesGo, if_neg h1, if_neg h2, if_neg h3, if_neg h4]
      rw [ih cs hcs]

theorem mem_stripFencesGo :
    ∀ fuel l (c : Char), c ∈ stripFencesGo fuel l → c ∈ l := by
  intro fuel
  induction fuel with
  | zero => intro l c h; exact h
  | succ n ih =>
    intro l c h
    match l with
    | [] => exact h
    | a :: as =>
      simp only [stripFencesGo] at h
      split at h
      · exact List.drop_subset 8 (a :: as) (ih _ c h)
      · split at h
        · exact List.drop_subset 7 (a :: as) (ih _ c h)
        · split at h
          · exact List.drop_subset 4 (a :: as) (ih _ c h)
          · split at h
            · exact List.drop_subset 3 (a :: as) (ih _ c h)
            · rcases List.mem_cons.mp h with h' | h'
              · exact h' ▸ List.mem_cons_self a as
              · exact List.mem_cons_of_mem a (ih as c h')

theorem mem_cleanStart {c : Char} {l : List Char} (h : c ∈ cleanStart l) :
    c ∈ l := by
  unfold cleanStart at h
  split at h
  case _ tail heq => exact (List.dropWhile_sublist isJsWs).mem (heq ▸ h)
  case _ => exact h

theorem mem_cleanEnd {c : Char} {l : List Char} (h : c ∈ cleanEnd l) :
    c ∈ l := by
  unfold cleanEnd at h
  split at h
  case _ rest heq =>
    rw [List.mem_reverse] at h
    exact List.mem_reverse.mp ((List.dropWhile_sublist isJsWs).mem (heq ▸ h))
  case _ => exact h

theorem mem_jsTrimChars {c : Char} {l : List Char} (h : c ∈ jsTrimChars l) :
    c ∈ l := by
  unfold jsTrimChars at h
  rw [List.mem_reverse] at h
  have h' := (List.dropWhile_sublist isJsWs).mem h
  rw [List.mem_reverse] at h'
  exact (List.dropWhile_sublist isJsWs).mem h'

theorem mem_cleanChars {c : Char} {l : List Char} (h : c ∈ cleanChars l) :
    c ∈ stripFences l :=
  mem_cleanStart (mem_cleanEnd (mem_jsTrimChars h))

theorem head?_dropWhile_false {p : Char → Bool} {l : List Char} {c : Char}
    (h : (l.dropWhile p).head? = some c) : p c = false := by
  have hd := List.head?_dropWhile_not p l
  rw [h] at hd
  exact hd

theorem head?_jsTrimChars_false {l : List Char} {c : Char}
    (h : (jsTrimChars l).head? = some c) : isJsWs c = false := by
  unfold jsTrimChars at h
  rw [List.head?_reverse] at h
  obtain ⟨pre, hpre⟩ :=
    List.dropWhile_suffix (l := (l.dropWhile isJsWs).reverse) isJsWs
  have h2 : ((l.dropWhile isJsWs).reverse).getLast? = some c := by
    rw [← hpre, List.getLast?_append, h]; rfl
  rw [List.getLast?_reverse] at h2
  exact head?_dropWhile_false h2

theorem getLast?_jsTrimChars_false {l : List Char} {c : Char}
    (h : (jsTrimChars l).getLast? = some c) : isJsWs c = false := by
  unfold jsTrimChars at h
  rw [List.getLast?_reverse] at h
  exact head?_dropWhile_false h

theorem dropWhile_eq_self_of_head? {p : Char → Bool} {l : List Char}
    (h : ∀ c, l.head? = some c → p c = false) : l.dropWhile p = l := by
  match l with
  | [] => rfl
  | a :: as =>
    rw [List.dropWhile_cons, h a rfl]
    simp

theorem cleanStart_of_trimmed {l : List Char}
    (h : l.dropWhile isJsWs = l) : cleanStart l = l := by
  unfold cleanStart
  rw [h]
  split <;> simp_all

theorem cleanEnd_of_trimmed {l : List Char}
    (h : l.reverse.dropWhile isJsWs = l.reverse) : cleanEnd l = l := by
  unfold cleanEnd
  rw [h]
  split <;> simp_all

theorem jsTrimChars_of_trimmed {l : List Char}
    (h1 : l.dropWhile isJsWs = l)
    (h2 : l.reverse.dropWhile isJsWs = l.reverse) : jsTrimChars l = l := by
  unfold jsTrimChars
  rw [h1, h2, List.reverse_reverse]

theorem cleanChars_fixed_of_tickFree {l : List Char}
    (h : tick ∉ cleanChars l) : cleanChars (cleanChars l) = cleanChars l := by
  have hstrip : stripFences (cleanChars l) = cleanChars l :=
    stripFencesGo_of_tickFree _ _ h
  have hhead : (cleanChars l).dropWhile isJsWs = cleanChars l :=
    dropWhile_eq_self_of_head? (fun c hc => head?_jsTrimChars_false hc)
  have hlast :
      (cleanChars l).reverse.dropWhile isJsWs = (cleanChars l).reverse :=
    dropWhile_eq_self_of_head? (fun c hc => by
      rw [List.head?_reverse] at hc
      exact getLast?_jsTrimChars_false hc)
  show jsTrimChars (cleanEnd (cleanStart (stripFences (cleanChars l))))
      = cleanChars l
  rw [hstrip, cleanStart_of_trimmed hhead, cleanEnd_of_trimmed hlast,
    jsTrimChars_of_trimmed hhead hlast]

/-! ## Claim C6: sanitizer idempotence -/

/-- Claim C6 as stated is false: the input `c6Input` contains at most one
pair of Markdown fence delimiters (indeed only one delimiter mark), yet the
first sanitization pass joins its leftover backtick runs into a fresh fence
that a second pass removes, so `clean (clean x) ≠ clean x`. -/
theorem claim_C6_counterexample :
    countFenceMarks c6Input ≤ 2 ∧
      cleanChars (cleanChars c6Input) ≠ cleanChars c6Input := by
  constructor
  · decide
  · decide

/-- Claim C6, amended: the sanitizer is idempotent on every text whose
fence-stripped form contains no backtick — in particular on any text whose
backticks occur only as the delimiters of at most one well-formed fence
pair.  (The counterexample shows stripping can join leftover backtick runs
into a new fence, so backtick-free residue is what the claim needs.) -/
theorem claim_C6_idempotent_amended {x : List Char}
    (h : tick ∉ stripFences x) : cleanChars (cleanChars x) = cleanChars x :=
  cleanChars_fixed_of_tickFree (fun hc => h (mem_cleanChars hc))

/-- Witness: the amended C6 theorem applied to a concrete fenced text. -/
theorem claim_C6_witness :
    tick ∉ stripFences ("```json\n{}\n```".data) ∧
      cleanChars (cleanChars ("```json\n{}\n```".data))
        = cleanChars ("```json\n{}\n```".data) :=
  ⟨by decide, claim_C6_idempotent_amended (by decide)⟩

/-! ## Lemmas about the rate limiter -/

theorem rlGet_rlSet_self (st : RLState) (ip : String) (e : RLEntry) :
    rlGet (rlSet st ip e) ip = some e := by
  induction st with
  | nil => simp [rlGet, rlSet]
  | cons p rest ih =>
    obtain ⟨k, e0⟩ := p
    by_cases hk : k = ip
    · simp [rlGet, rlSet, hk]
    · simp [rlGet, rlSet, hk, ih]

theorem isRateLimited_increment {now t0 : Int} {c : Nat} {ip : String}
    (hin : ¬ now - t0 > RATE_LIMIT_WINDOW) (hc : c < MAX_REQUESTS_PER_IP) :
    isRateLimited now ip [(ip, ⟨c, t0⟩)] = (false, [(ip, ⟨c + 1, t0⟩)]) := by
  simp only [isRateLimited, show rlGet [(ip, ⟨c, t0⟩)] ip = some ⟨c, t0⟩ by simp [rlGet]]
  rw [if_neg hin, if_neg (Nat.not_le.mpr hc)]
  simp [rlSet]

theorem isRateLimited_deny {now : Int} {ip : String} {st : RLState}
    {e : RLEntry} (hget : rlGet st ip = some e)
    (hin : ¬ now - e.timestamp > RATE_LIMIT_WINDOW)
    (hc : e.count ≥ MAX_REQUESTS_PER_IP) :
    isRateLimited now ip st = (true, st) := by
  simp only [isRateLimited, hget]
  rw [if_neg hin, if_pos hc]

theorem isRateLimited_reset {now : Int} {ip : String} {st : RLState}
    {e : RLEntry} (hget : rlGet st ip = some e)
    (hout : now - e.timestamp > RATE_LIMIT_WINDOW) :
    isRateLimited now ip st = (false, rlSet st ip ⟨1, now⟩) := by
  simp only [isRateLimited, hget]
  rw [if_pos hout]

/-- In-window runs below the cap: starting from a single-entry state with
count `c`, a run of requests all inside the window and not exceeding the
cap is entirely allowed, incrementing the count once per request and
leaving the window start untouched. -/
theorem rlRun_inWindow {ip : String} {t0 : Int} :
    ∀ (ts : List Int) (c : Nat),
      (∀ t ∈ ts, t - t0 ≤ RATE_LIMIT_WINDOW) →
      c + ts.length ≤ MAX_REQUESTS_PER_IP →
      rlRun ip ts [(ip, ⟨c, t0⟩)] =
        (List.replicate ts.length false, [(ip, ⟨c + ts.length, t0⟩)]) := by
  intro ts
  induction ts with
  | nil => intro c _ _; simp [rlRun]
  | cons t ts ih =>
    intro c hin hle
    have h1 : isRateLimited t ip [(ip, ⟨c, t0⟩)] = (false, [(ip, ⟨c + 1, t0⟩)]) :=
      isRateLimited_increment
        (by have := hin t (List.mem_cons_self t ts); omega)
        (by simp only [List.length_cons] at hle; omega)
    have h2 := ih (c + 1)
      (fun t' ht' => hin t' (List.mem_cons_of_mem t ht'))
      (by simp only [List.length_cons] at hle; omega)
    simp only [rlRun, h1, h2, List.length_cons, List.replicate_succ]
    have : c + 1 + ts.length = c + (ts.length + 1) := by omega
    rw [this]

/-! ## Claim C1: fixed-window counting -/

/-- Claim C1: from an empty limiter state, a first request at `t0` and 19
further requests inside the window are all allowed (in particular the 20th
request); a 21st in-window request is denied; and a request more than one
window length after the entry's window start is allowed again with the
counter reset to 1 and the window start moved to its time. -/
theorem claim_C1_fixed_window (ip : String) (t0 : Int) (ts : List Int)
    (t20 tr : Int) (hlen : ts.length = 19)
    (hin : ∀ t ∈ ts, t - t0 ≤ RATE_LIMIT_WINDOW)
    (h20 : t20 - t0 ≤ RATE_LIMIT_WINDOW)
    (hr : tr - t0 > RATE_LIMIT_WINDOW) :
    (rlRun ip (t0 :: ts) []).1 = List.replicate 20 false ∧
    (isRateLimited t20 ip (rlRun ip (t0 :: ts) []).2).1 = true ∧
    (isRateLimited tr ip
        (isRateLimited t20 ip (rlRun ip (t0 :: ts) []).2).2).1 = false ∧
    rlGet (isRateLimited tr ip
        (isRateLimited t20 ip (rlRun ip (t0 :: ts) []).2).2).2 ip
      = some ⟨1, tr⟩ := by
  have hfirst : isRateLimited t0 ip [] = (false, [(ip, ⟨1, t0⟩)]) := rfl
  have hrun := @rlRun_inWindow ip t0 ts 1 hin
    (by simp only [MAX_REQUESTS_PER_IP, hlen]; omega)
  have hfull : rlRun ip (t0 :: ts) []
      = (false :: List.replicate 19 false, [(ip, ⟨20, t0⟩)]) := by
    simp [rlRun, hfirst, hrun, hlen]
  have hget : rlGet [(ip, (⟨20, t0⟩ : RLEntry))] ip = some ⟨20, t0⟩ := by
    simp [rlGet]
  have hdeny : isRateLimited t20 ip [(ip, ⟨20, t0⟩)]
      = (true, [(ip, ⟨20, t0⟩)]) :=
    isRateLimited_deny hget (show ¬ t20 - t0 > RATE_LIMIT_WINDOW by omega)
      (by simp [MAX_REQUESTS_PER_IP])
  have hreset : isRateLimited tr ip [(ip, ⟨20, t0⟩)]
      = (false, rlSet [(ip, ⟨20, t0⟩)] ip ⟨1, tr⟩) :=
    isRateLimited_reset hget (show tr - t0 > RATE_LIMIT_WINDOW from hr)
  refine ⟨?_, ?_, ?_, ?_⟩
  · rw [hfull]; rfl
  · rw [hfull, hdeny]
  · rw [hfull, hdeny, hreset]
  · rw [hfull, hdeny, hreset]
    exact rlGet_rlSet_self _ ip ⟨1, tr⟩

/-- Witness: C1 instantiated with 21 requests at time 0 and a later request
one millisecond past the window. -/
theorem claim_C1_witness :
    (List.replicate 19 (0 : Int)).length = 19 ∧
    (∀ t ∈ List.replicate 19 (0 : Int), t - 0 ≤ RATE_LIMIT_WINDOW) ∧
    (0 : Int) - 0 ≤ RATE_LIMIT_WINDOW ∧
    (3600001 : Int) - 0 > RATE_LIMIT_WINDOW ∧
    ((rlRun "k" ((0 : Int) :: List.replicate 19 0) []).1
        = List.replicate 20 false ∧
      (isRateLimited 0 "k" (rlRun "k" ((0 : Int) :: List.replicate 19 0) []).2).1
        = true ∧
      (isRateLimited 3600001 "k"
          (isRateLimited 0 "k"
            (rlRun "k" ((0 : Int) :: List.replicate 19 0) []).2).2).1 = false ∧
      rlGet (isRateLimited 3600001 "k"
          (isRateLimited 0 "k"
            (rlRun "k" ((0 : Int) :: List.replicate 19 0) []).2).2).2 "k"
        = some ⟨1, 3600001⟩) :=
  ⟨by decide, by decide, by decide, by decide,
    claim_C1_fixed_window "k" 0 (List.replicate 19 0) 0 3600001
      (by decide) (by decide) (by decide) (by decide)⟩

/-! ## Claim C8: denial does not mutate the limiter state -/

/-- Claim C8: when an entry for the client key exists inside the current
window with count at least the cap, the check denies and returns the state
unchanged (no increment, no window move). -/
theorem claim_C8_deny_no_mutation {st : RLState} {ip : String} {now : Int}
    {e : RLEntry} (hget : rlGet st ip = some e)
    (hin : now - e.timestamp ≤ RATE_LIMIT_WINDOW)
    (hc : e.count ≥ MAX_REQUESTS_PER_IP) :
    (isRateLimited now ip st).1 = true ∧ (isRateLimited now ip st).2 = st := by
  rw [isRateLimited_deny hget (by omega) hc]
  exact ⟨rfl, rfl⟩

/-- Witness: C8 applied to a two-entry state with a saturated entry. -/
theorem claim_C8_witness :
    rlGet [("other", (⟨3, 5⟩ : RLEntry)), ("k", ⟨20, 0⟩)] "k" = some ⟨20, 0⟩ ∧
    (100 : Int) - 0 ≤ RATE_LIMIT_WINDOW ∧
    (20 : Nat) ≥ MAX_REQUESTS_PER_IP ∧
    ((isRateLimited 100 "k" [("other", ⟨3, 5⟩), ("k", ⟨20, 0⟩)]).1 = true ∧
      (isRateLimited 100 "k" [("other", ⟨3, 5⟩), ("k", ⟨20, 0⟩)]).2
        = [("other", ⟨3, 5⟩), ("k", ⟨20, 0⟩)]) :=
  ⟨by decide, by decide, by decide,
    @claim_C8_deny_no_mutation [("other", ⟨3, 5⟩), ("k", ⟨20, 0⟩)] "k" 100
      ⟨20, 0⟩ (by decide) (by decide) (by decide)⟩

/-! ## Claim C5: the input validator -/

/-- Claim C5 as stated is false: an input pair whose combined length
exceeds 30000 but whose ingredients are empty is rejected with the
EmptyInput message, not the InputTooLarge message the claim promises for
every oversized input — the emptiness check runs first. -/
theorem claim_C5_counterexample :
    "".length + bigSteps.length > MAX_TOKENS ∧
    validateInput "" bigSteps = some "Ingredients and steps are required." ∧
    "Ingredients and steps are required."
      ≠ "Input is too long. Please reduce the length of ingredients or steps." := by
  refine ⟨?_, ?_, by decide⟩
  · have hb : bigSteps.length = 30001 := by
      show (String.mk (List.replicate 30001 'a')).length = 30001
      rw [show (String.mk (List.replicate 30001 'a')).length
          = (List.replicate 30001 'a').length from rfl]
      exact List.length_replicate 30001 'a'
    rw [hb]
    decide
  · unfold validateInput
    have hc : (decide (jsTrimStr "" = "") || decide (jsTrimStr bigSteps = ""))
        = true := by
      rw [show decide (jsTrimStr "" = "") = true from rfl, Bool.true_or]
    rw [if_pos hc]

/-- Claim C5, amended: the validator accepts exactly the pairs that are
non-empty after trimming with combined length at most 30000; it rejects
with the EmptyInput message whenever either field trims to empty (even if
the input is also oversized, since that check runs first), and with the
InputTooLarge message when neither field trims to empty and the combined
length exceeds 30000. -/
theorem claim_C5_validate_input_amended (ingredients steps : String) :
    (validateInput ingredients steps = none ↔
      (jsTrimStr ingredients ≠ "" ∧ jsTrimStr steps ≠ "" ∧
        ingredients.length + steps.length ≤ MAX_TOKENS)) ∧
    ((jsTrimStr ingredients = "" ∨ jsTrimStr steps = "") →
      validateInput ingredients steps
        = some "Ingredients and steps are required.") ∧
    (jsTrimStr ingredients ≠ "" → jsTrimStr steps ≠ "" →
      ingredients.length + steps.length > MAX_TOKENS →
      validateInput ingredients steps
        = some "Input is too long. Please reduce the length of ingredients or steps.") := by
  unfold validateInput
  split_ifs with h1 h2
  · simp only [Bool.or_eq_true, decide_eq_true_eq] at h1
    refine ⟨by simp [imp_false]; intro hi hs; tauto, fun _ => rfl,
      fun hni hns _ => ?_⟩
    rcases h1 with h | h
    · exact absurd h hni
    · exact absurd h hns
  · simp only [Bool.or_eq_true, decide_eq_true_eq, not_or] at h1
    refine ⟨by simp; omega, fun hc => ?_, fun _ _ _ => rfl⟩
    rcases hc with h | h
    · exact absurd h h1.1
    · exact absurd h h1.2
  · simp only [Bool.or_eq_true, decide_eq_true_eq, not_or] at h1
    refine ⟨by simp [h1.1, h1.2]; omega, fun hc => ?_, fun _ _ hgt => ?_⟩
    · rcases hc with h | h
      · exact absurd h h1.1
      · exact absurd h h1.2
    · omega

/-- Witness: the amended C5 theorem applied to an empty-ingredients input. -/
theorem claim_C5_witness :
    validateInput "" "x" = some "Ingredients and steps are required." :=
  (claim_C5_validate_input_amended "" "x").2.1 (Or.inl (by decide))

/-! ## Claims C2 and C3: the recipe field checks -/

/-- Claim C2 as stated is false: the validator's required-field list also
contains `titleVariations`, so the C2 payload is reported with five missing
fields (in required-field order), not the four the claim lists. -/
theorem claim_C2_counterexample :
    validateRecipe c2Json
      = .error (.missingFields
          ["titleVariations", "prepTime", "cookTime", "ingredients",
           "instructions"]) ∧
    (["titleVariations", "prepTime", "cookTime", "ingredients",
      "instructions"] : List String)
      ≠ ["prepTime", "cookTime", "ingredients", "instructions"] :=
  ⟨rfl, by decide⟩

/-- Claim C2, amended: on the payload whose parsed JSON is
`{"name":"X","servings":"2"}` the validator fails with a MissingFields
error listing exactly the five field names titleVariations, prepTime,
cookTime, ingredients, instructions (each absent field named, and no
others) — the extended schema also requires titleVariations. -/
theorem claim_C2_missing_fields_amended :
    validateRecipe c2Json
      = .error (.missingFields
          ["titleVariations", "prepTime", "cookTime", "ingredients",
           "instructions"]) := rfl

/-- Claim C3 as stated is false: the C3 payload lacks `titleVariations`,
which is also a required field, so the validator stops at the
field-presence check with MissingFields(["titleVariations"]) and never
reaches the non-empty-array check on ingredients. -/
theorem claim_C3_counterexample :
    validateRecipe c3Json = .error (.missingFields ["titleVariations"]) ∧
    RecipeError.missingFields ["titleVariations"]
      ≠ .emptyRequiredList "ingredients" :=
  ⟨rfl, by decide⟩

/-- Claim C3, amended: on the C3 payload the validator fails with
MissingFields(["titleVariations"]); on the same payload extended with a
non-empty titleVariations array it fails with
EmptyRequiredList("ingredients"), the non-empty-array check on ingredients. -/
theorem claim_C3_empty_list_amended :
    validateRecipe c3Json = .error (.missingFields ["titleVariations"]) ∧
    validateRecipe c3JsonTv = .error (.emptyRequiredList "ingredients") :=
  ⟨rfl, rfl⟩

/-! ## Claim C9: falsy field values count as missing -/

/-- Claim C9: if a required field of a parsed JSON object is present but
bound to a falsy value (empty string, 0, false or null), the validator
reports that field in a MissingFields error rather than accepting the
recipe. -/
theorem claim_C9_falsy_missing {members : List (String × JsonVal)}
    {field : String} {v : JsonVal}
    (hf : field ∈ requiredFields)
    (hlook : jsLookup members field = some v)
    (hfalsy : jsFalsy (some v) = true) :
    ∃ missing,
      validateRecipe (.obj members) = .error (.missingFields missing) ∧
        field ∈ missing := by
  have hpred : jsFalsy (jsIndex (.obj members) field) = true := by
    simp only [jsIndex, hlook, hfalsy]
  have hmem : field ∈ requiredFields.filter
      (fun f => jsFalsy (jsIndex (.obj members) f)) :=
    List.mem_filter.mpr ⟨hf, hpred⟩
  refine ⟨_, ?_, hmem⟩
  simp only [validateRecipe]
  rw [if_pos (List.ne_nil_of_mem hmem)]

/-- Witness: C9 applied to an object binding `name` to the empty string. -/
theorem claim_C9_witness :
    "name" ∈ requiredFields ∧
    jsLookup [("name", JsonVal.str "")] "name" = some (.str "") ∧
    jsFalsy (some (.str "")) = true ∧
    (∃ missing,
      validateRecipe (.obj [("name", .str "")])
          = .error (.missingFields missing) ∧ "name" ∈ missing) :=
  ⟨by decide, rfl, rfl, claim_C9_falsy_missing (by decide) rfl rfl⟩

/-! ## The validation call on destructured body fields -/

theorem jsIndex_of_strFieldOf {body : JsonVal} {k s : String}
    (h : strFieldOf body k = some s) : jsIndex body k = some (.str s) := by
  unfold strFieldOf at h
  split at h <;> simp_all

theorem validateInputCall_str (i s : String) :
    validateInputCall (some (.str i)) (some (.str s))
      = .ok (validateInput i s) := by
  by_cases h : jsTrimStr i = ""
  · simp [validateInputCall, validateInput, h]
  · simp [validateInputCall, h]

/-! ## Claim C7: the handler's status mapping -/

/-- Claim C7: a rate-limiter denial yields 429 with the rate-limit error
message whatever the body and generation outcome are (validation and
generation are not reached); an input-validation failure yields 400 with
the validator's message; a recipe-format failure after generation yields
500 with a message embedding the specific diagnostic; and a fully
successful pipeline yields 200 with the recipe as the body. -/
theorem claim_C7_status_mapping (rl : RLState) (now : Int)
    (fwd : Option String) (body : JsonVal) (gen : Except String String) :
    ((isRateLimited now (ipFromHeader fwd) rl).1 = true →
      (handlePost rl now fwd body gen).1
        = ⟨429, .errText "Rate limit exceeded. Please try again later."⟩) ∧
    (∀ ingredients steps msg,
      (isRateLimited now (ipFromHeader fwd) rl).1 = false →
      strFieldOf body "ingredients" = some ingredients →
      strFieldOf body "steps" = some steps →
      validateInput ingredients steps = some msg →
      (handlePost rl now fwd body gen).1 = ⟨400, .errText msg⟩) ∧
    (∀ ingredients steps text e,
      (isRateLimited now (ipFromHeader fwd) rl).1 = false →
      strFieldOf body "ingredients" = some ingredients →
      strFieldOf body "steps" = some steps →
      validateInput ingredients steps = none →
      gen = .ok text →
      recipeValidator (cleanResponse text) = .error e →
      (handlePost rl now fwd body gen).1
        = ⟨500, .errText ("Invalid recipe format: " ++ recipeErrMessage e)⟩) ∧
    (∀ ingredients steps text recipe,
      (isRateLimited now (ipFromHeader fwd) rl).1 = false →
      strFieldOf body "ingredients" = some ingredients →
      strFieldOf body "steps" = some steps →
      validateInput ingredients steps = none →
      gen = .ok text →
      recipeValidator (cleanResponse text) = .ok recipe →
      (handlePost rl now fwd body gen).1 = ⟨200, .recipeJson recipe⟩) := by
  refine ⟨?_, ?_, ?_, ?_⟩
  · intro hrc
    simp [handlePost, hrc]
  · intro i s msg hrc hi hs hv
    have hi' := jsIndex_of_strFieldOf hi
    have hs' := jsIndex_of_strFieldOf hs
    simp [handlePost, hrc, hi', hs', validateInputCall_str, hv]
  · intro i s text e hrc hi hs hv hg hrv
    subst hg
    have hi' := jsIndex_of_strFieldOf hi
    have hs' := jsIndex_of_strFieldOf hs
    simp [handlePost, hrc, hi', hs', validateInputCall_str, hv, hrv]
  · intro i s text recipe hrc hi hs hv hg hrv
    subst hg
    have hi' := jsIndex_of_strFieldOf hi
    have hs' := jsIndex_of_strFieldOf hs
    simp [handlePost, hrc, hi', hs', validateInputCall_str, hv, hrv]

set_option maxRecDepth 8000 in
/-- Witness: the C7 mapping applied on concrete requests realizing each of
the four outcomes (429, 400, 500 with embedded diagnostic, 200). -/
theorem claim_C7_witness :
    (isRateLimited 0 "unknown" [("unknown", ⟨20, 0⟩)]).1 = true ∧
    (handlePost [("unknown", ⟨20, 0⟩)] 0 none (.obj []) (.ok "x")).1
      = ⟨429, .errText "Rate limit exceeded. Please try again later."⟩ ∧
    (handlePost [] 0 none
        (.obj [("ingredients", .str " "), ("steps", .str "x")]) (.ok "x")).1
      = ⟨400, .errText "Ingredients and steps are required."⟩ ∧
    (handlePost [] 0 none
        (.obj [("ingredients", .str "eggs"), ("steps", .str "mix")])
        (.ok "x")).1
      = ⟨500, .errText ("Invalid recipe format: "
          ++ recipeErrMessage .malformedJson)⟩ ∧
    (handlePost [] 0 none
        (.obj [("ingredients", .str "eggs"), ("steps", .str "mix")])
        (.ok (recipeJsonString rPancakes))).1
      = ⟨200, .recipeJson (recipeJsonVal rPancakes)⟩ :=
  ⟨by decide,
    (claim_C7_status_mapping [("unknown", ⟨20, 0⟩)] 0 none (.obj [])
        (.ok "x")).1 (by decide),
    (claim_C7_status_mapping [] 0 none
        (.obj [("ingredients", .str " "), ("steps", .str "x")])
        (.ok "x")).2.1 " " "x" _ (by decide) rfl rfl (by decide),
    (claim_C7_status_mapping [] 0 none
        (.obj [("ingredients", .str "eggs"), ("steps", .str "mix")])
        (.ok "x")).2.2.1 "eggs" "mix" "x" .malformedJson
        (by decide) rfl rfl (by decide) rfl rfl,
    (claim_C7_status_mapping [] 0 none
        (.obj [("ingredients", .str "eggs"), ("steps", .str "mix")])
        (.ok (recipeJsonString rPancakes))).2.2.2 "eggs" "mix"
        (recipeJsonString rPancakes) (recipeJsonVal rPancakes)
        (by decide) rfl rfl (by decide) rfl rfl⟩

/-! ## Claim C10: missing or non-string body fields give 500, not 400 -/

/-- Counterexample to claim C10 as stated: in the body that binds
`ingredients` to a whitespace-only string and `steps` to a number, the
`steps` field is non-string, yet the response is 400 with the validator's
message rather than 500: `!ingredients.trim()` is already true, so the
disjunction `!ingredients.trim() || !steps.trim()` short-circuits before
`steps.trim()` can throw. -/
theorem claim_C10_counterexample :
    strFieldOf (.obj [("ingredients", .str " "), ("steps", .num 5)])
        "steps" = none ∧
    (handlePost [] 0 none
        (.obj [("ingredients", .str " "), ("steps", .num 5)])
        (.ok "x")).1
      = ⟨400, .errText "Ingredients and steps are required."⟩ ∧
    (400 : Nat) ≠ 500 :=
  ⟨rfl, rfl, by decide⟩

/-- Claim C10 amended: when the request is not rate limited, an absent or
non-string `ingredients` field makes `ingredients.trim()` throw a
`TypeError` that the outer handler catches as 500, not the 400 used for
validation failures; an absent or non-string `steps` field likewise yields
500 when the string `ingredients` does not trim to empty; but when
`ingredients` is a string trimming to empty, `!ingredients.trim()`
short-circuits the disjunction before `steps.trim()` is evaluated, and the
response is the validator's 400 whatever the `steps` field holds. -/
theorem claim_C10_nonstring_500_amended (rl : RLState) (now : Int)
    (fwd : Option String) (body : JsonVal) (gen : Except String String)
    (hrc : (isRateLimited now (ipFromHeader fwd) rl).1 = false) :
    (strFieldOf body "ingredients" = none →
      (handlePost rl now fwd body gen).1.status = 500 ∧
      (handlePost rl now fwd body gen).1.status ≠ 400) ∧
    (∀ i, strFieldOf body "ingredients" = some i → jsTrimStr i ≠ "" →
      strFieldOf body "steps" = none →
      (handlePost rl now fwd body gen).1.status = 500 ∧
      (handlePost rl now fwd body gen).1.status ≠ 400) ∧
    (∀ i, strFieldOf body "ingredients" = some i → jsTrimStr i = "" →
      (handlePost rl now fwd body gen).1
        = ⟨400, .errText "Ingredients and steps are required."⟩) := by
  refine ⟨?_, ?_, ?_⟩
  · intro hi
    have hcall : validateInputCall (jsIndex body "ingredients")
        (jsIndex body "steps") = .error trimTypeErrorMsg := by
      unfold validateInputCall
      split
      · next i heq =>
          unfold strFieldOf at hi
          rw [heq] at hi
          simp at hi
      · rfl
    have h5 : (handlePost rl now fwd body gen).1.status = 500 := by
      simp [handlePost, hrc, hcall]
    exact ⟨h5, by rw [h5]; decide⟩
  · intro i hi hne hs
    have hi' := jsIndex_of_strFieldOf hi
    have h5 : (handlePost rl now fwd body gen).1.status = 500 := by
      cases hstp : jsIndex body "steps" with
      | none => simp [handlePost, hrc, hi', hstp, validateInputCall, hne]
      | some v =>
        cases v
        case str s =>
          rw [show strFieldOf body "steps" = some s by
            unfold strFieldOf; rw [hstp]] at hs
          exact absurd hs (by simp)
        all_goals simp [handlePost, hrc, hi', hstp, validateInputCall, hne]
    exact ⟨h5, by rw [h5]; decide⟩
  · intro i hi he
    have hi' := jsIndex_of_strFieldOf hi
    simp [handlePost, hrc, hi', validateInputCall, he]

/-- Witness: the amended C10 applied at three concrete bodies: one with
`steps` present but `ingredients` absent (500), one with a non-blank string
`ingredients` but a numeric `steps` (500), and one with a blank string
`ingredients` and a numeric `steps` (400 via the short-circuit). -/
theorem claim_C10_witness :
    (isRateLimited 0 (ipFromHeader none) []).1 = false ∧
    ((handlePost [] 0 none (.obj [("steps", .str "mix")])
        (.ok "x")).1.status = 500 ∧
      (handlePost [] 0 none (.obj [("steps", .str "mix")])
        (.ok "x")).1.status ≠ 400) ∧
    ((handlePost [] 0 none
        (.obj [("ingredients", .str "eggs"), ("steps", .num 5)])
        (.ok "x")).1.status = 500 ∧
      (handlePost [] 0 none
        (.obj [("ingredients", .str "eggs"), ("steps", .num 5)])
        (.ok "x")).1.status ≠ 400) ∧
    (handlePost [] 0 none
        (.obj [("ingredients", .str " "), ("steps", .num 5)])
        (.ok "x")).1
      = ⟨400, .errText "Ingredients and steps are required."⟩ :=
  ⟨by decide,
    (claim_C10_nonstring_500_amended [] 0 none (.obj [("steps", .str "mix")])
        (.ok "x") (by decide)).1 rfl,
    (claim_C10_nonstring_500_amended [] 0 none
        (.obj [("ingredients", .str "eggs"), ("steps", .num 5)])
        (.ok "x") (by decide)).2.1 "eggs" rfl (by decide) rfl,
    (claim_C10_nonstring_500_amended [] 0 none
        (.obj [("ingredients", .str " "), ("steps", .num 5)])
        (.ok "x") (by decide)).2.2 " " rfl rfl⟩

/-! ## Sanitizing a fence-wrapped backtick-free text -/

theorem isPrefixOf_cons_cons {a b : Char} {l₁ l₂ : List Char}
    (h : (a :: l₁).isPrefixOf (b :: l₂) = true) :
    a = b ∧ l₁.isPrefixOf l₂ = true := by
  simpa [List.isPrefixOf, Bool.and_eq_true] using h

theorem stripFencesGo_nil (fuel : Nat) : stripFencesGo fuel [] = [] := by
  cases fuel <;> rfl

/-- Scanning a backtick-free text followed by the closing fence emits the
text unchanged and consumes the fence. -/
theorem stripFencesGo_append_nlFence :
    ∀ fuel (s : List Char), tick ∉ s → s.length + 4 ≤ fuel →
      stripFencesGo fuel (s ++ nlFence) = s := by
  intro fuel
  induction fuel with
  | zero => intro s _ hle; omega
  | succ n ih =>
    intro s hs hle
    match s with
    | [] =>
      show stripFencesGo (n + 1) nlFence = []
      simp only [stripFencesGo]
      rw [if_neg (by decide), if_neg (by decide), if_pos (by decide)]
      exact stripFencesGo_nil n
    | c :: s' =>
      have hcs : c :: s' ++ nlFence = c :: (s' ++ nlFence) := rfl
      have hc_ne : c ≠ tick := fun h => hs (h ▸ List.mem_cons_self c s')
      have h1 : ¬ (fenceJsonNl.isPrefixOf (c :: (s' ++ nlFence)) = true) := by
        intro h
        exact hc_ne ((isPrefixOf_cons_cons h).1).symm
      have h2 : ¬ (fenceJson.isPrefixOf (c :: (s' ++ nlFence)) = true) := by
        intro h
        exact hc_ne ((isPrefixOf_cons_cons h).1).symm
      have h4 : ¬ (fenceTicks.isPrefixOf (c :: (s' ++ nlFence)) = true) := by
        intro h
        exact hc_ne ((isPrefixOf_cons_cons h).1).symm
      have h3 : ¬ (nlFence.isPrefixOf (c :: (s' ++ nlFence)) = true) := by
        intro h
        obtain ⟨_, hrest⟩ := isPrefixOf_cons_cons h
        match s' with
        | [] =>
          rw [show ([] : List Char) ++ nlFence = nlFence from rfl] at hrest
          exact absurd ((isPrefixOf_cons_cons hrest).1) (by decide)
        | d :: s'' =>
          have hd := (isPrefixOf_cons_cons hrest).1
          refine hs ?_
          rw [hd]
          exact List.mem_cons_of_mem c (List.mem_cons_self d s'')
      rw [hcs]
      simp only [stripFencesGo]
      rw [if_neg h1, if_neg h2, if_neg h3, if_neg h4]
      have hs' : tick ∉ s' := fun h => hs (List.mem_cons_of_mem c h)
      rw [ih s' hs' (by simp only [List.length_cons] at hle; omega)]

/-- Stripping fences from a fence-wrapped backtick-free text recovers the
text: the scanner consumes the opening fence with its newline, emits the
body unchanged, and consumes the closing fence. -/
theorem stripFences_fenceWrap {s : List Char} (hs : tick ∉ s) :
    stripFences (fenceJsonNl ++ s ++ nlFence) = s := by
  unfold stripFences
  rw [List.append_assoc]
  have hlen : (fenceJsonNl ++ (s ++ nlFence)).length = (s.length + 11) + 1 := by
    simp [fenceJsonNl, nlFence]
  rw [hlen]
  have hpre : fenceJsonNl.isPrefixOf (fenceJsonNl ++ (s ++ nlFence)) = true :=
    List.isPrefixOf_iff_prefix.mpr (List.prefix_append _ _)
  have hstep : stripFencesGo ((s.length + 11) + 1) (fenceJsonNl ++ (s ++ nlFence))
      = stripFencesGo (s.length + 11) (s ++ nlFence) := by
    rw [show fenceJsonNl ++ (s ++ nlFence)
        = tick :: (tick :: tick :: 'j' :: 's' :: 'o' :: 'n' :: '\n' :: (s ++ nlFence))
        from rfl]
    simp only [stripFencesGo]
    rw [if_pos (by exact hpre)]
    exact rfl
  rw [hstep]
  exact stripFencesGo_append_nlFence _ s hs (by omega)

theorem cleanStart_lbrace (t : List Char) :
    cleanStart ('\x7b' :: t) = '\x7b' :: t := by
  unfold cleanStart
  rw [List.dropWhile_cons, if_neg (by decide)]
  rfl

theorem cleanEnd_of_getLast?_rbrace {l : List Char}
    (h : l.getLast? = some '\x7d') : cleanEnd l = l := by
  have h' : l.reverse.head? = some '\x7d' := by
    rw [List.head?_reverse]; exact h
  match hrev : l.reverse with
  | [] => rw [hrev] at h'; exact absurd h' (by simp)
  | c :: t =>
    rw [hrev] at h'
    have hc : c = '\x7d' := Option.some.inj (by simpa using h')
    subst hc
    unfold cleanEnd
    rw [hrev, List.dropWhile_cons, if_neg (by decide)]
    show ('\x7d' :: t).reverse = l
    rw [← hrev, List.reverse_reverse]

/-- The full sanitizer on a fence-wrapped backtick-free JSON-object text:
the fences are stripped and the brace-delimited body is left untouched by
the start, end and trim stages. -/
theorem cleanChars_fenceWrap_json {l : List Char} (htick : tick ∉ l)
    (hhead : ∃ t, l = '\x7b' :: t) (hlast : l.getLast? = some '\x7d') :
    cleanChars (fenceJsonNl ++ l ++ nlFence) = l := by
  unfold cleanChars
  rw [stripFences_fenceWrap htick]
  have hhead' : l.dropWhile isJsWs = l := by
    obtain ⟨t, rfl⟩ := hhead
    rw [List.dropWhile_cons, if_neg (by decide)]
  have hlast' : l.reverse.dropWhile isJsWs = l.reverse :=
    dropWhile_eq_self_of_head? (fun c hc => by
      rw [List.head?_reverse, hlast] at hc
      rw [← Option.some.inj hc]
      decide)
  have hstart : cleanStart l = l := by
    obtain ⟨t, rfl⟩ := hhead
    exact cleanStart_lbrace t
  rw [hstart, cleanEnd_of_getLast?_rbrace hlast,
    jsTrimChars_of_trimmed hhead' hlast']

/-! ## Round trip of string serialization through the parser -/

theorem skipWs_cons_not {c : Char} (h : isJsonWs c = false) (l : List Char) :
    skipWs (c :: l) = c :: l := by
  simp [skipWs, List.dropWhile_cons, h]

theorem hexVal_hexDigitChar {m : Nat} (h : m < 16) :
    hexVal (hexDigitChar m) = some m := by
  interval_cases m <;> rfl

set_option maxHeartbeats 1600000 in
theorem parseStrChars_cons_other {c : Char} (h1 : c ≠ '"') (h2 : c ≠ '\\')
    (h3 : ¬ c.toNat < 32) (l : List Char) :
    parseStrChars (c :: l)
      = (parseStrChars l).map (fun p => (c :: p.1, p.2)) := by
  rw [parseStrChars.eq_def]
  split <;> simp_all

theorem parseStrChars_unicode {d1 d2 : Char} {m1 m2 : Nat}
    (hd1 : hexVal d1 = some m1) (hd2 : hexVal d2 = some m2) (R : List Char) :
    parseStrChars ('\\' :: 'u' :: '0' :: '0' :: d1 :: d2 :: R)
      = (parseStrChars R).map
          (fun p => (Char.ofNat (0 * 4096 + 0 * 256 + m1 * 16 + m2) :: p.1, p.2)) := by
  have h0 : parseStrChars ('\\' :: 'u' :: '0' :: '0' :: d1 :: d2 :: R)
      = match hexVal '0', hexVal '0', hexVal d1, hexVal d2 with
        | some a, some b, some c, some d =>
          (parseStrChars R).map
            (fun p => (Char.ofNat (a * 4096 + b * 256 + c * 16 + d) :: p.1, p.2))
        | _, _, _, _ => none := rfl
  rw [h0, hd1, hd2, show hexVal '0' = some 0 from rfl]

/-- Parsing the escaped serialization of a character list followed by the
closing quote recovers the list and leaves the rest untouched. -/
theorem parseStrChars_escape :
    ∀ (cs rest : List Char),
      parseStrChars (cs.flatMap escChar ++ ('"' :: rest)) = some (cs, rest) := by
  intro cs
  induction cs with
  | nil => intro rest; rfl
  | cons c cs ih =>
    intro rest
    rw [List.flatMap_cons, List.append_assoc]
    by_cases h1 : c = '"'
    · subst h1
      rw [show parseStrChars (escChar '"' ++ (cs.flatMap escChar ++ '"' :: rest))
          = (parseStrChars (cs.flatMap escChar ++ '"' :: rest)).map
              (fun p => ('"' :: p.1, p.2)) from rfl, ih]
      rfl
    · by_cases h2 : c = '\\'
      · subst h2
        rw [show parseStrChars (escChar '\\' ++ (cs.flatMap escChar ++ '"' :: rest))
            = (parseStrChars (cs.flatMap escChar ++ '"' :: rest)).map
                (fun p => ('\\' :: p.1, p.2)) from rfl, ih]
        rfl
      · by_cases h3 : c = '\x08'
        · subst h3
          rw [show parseStrChars (escChar '\x08' ++ (cs.flatMap escChar ++ '"' :: rest))
              = (parseStrChars (cs.flatMap escChar ++ '"' :: rest)).map
                  (fun p => ('\x08' :: p.1, p.2)) from rfl, ih]
          rfl
        · by_cases h4 : c = '\t'
          · subst h4
            rw [show parseStrChars (escChar '\t' ++ (cs.flatMap escChar ++ '"' :: rest))
                = (parseStrChars (cs.flatMap escChar ++ '"' :: rest)).map
                    (fun p => ('\t' :: p.1, p.2)) from rfl, ih]
            rfl
          · by_cases h5 : c = '\n'
            · subst h5
              rw [show parseStrChars (escChar '\n' ++ (cs.flatMap escChar ++ '"' :: rest))
                  = (parseStrChars (cs.flatMap escChar ++ '"' :: rest)).map
                      (fun p => ('\n' :: p.1, p.2)) from rfl, ih]
              rfl
            · by_cases h6 : c = '\x0c'
              · subst h6
                rw [show parseStrChars (escChar '\x0c' ++ (cs.flatMap escChar ++ '"' :: rest))
                    = (parseStrChars (cs.flatMap escChar ++ '"' :: rest)).map
                        (fun p => ('\x0c' :: p.1, p.2)) from rfl, ih]
                rfl
              · by_cases h7 : c = '\r'
                · subst h7
                  rw [show parseStrChars (escChar '\r' ++ (cs.flatMap escChar ++ '"' :: rest))
                      = (parseStrChars (cs.flatMap escChar ++ '"' :: rest)).map
                          (fun p => ('\r' :: p.1, p.2)) from rfl, ih]
                  rfl
                · by_cases hlt : c.toNat < 32
                  · have hesc : escChar c
                        = ['\\', 'u', '0', '0', hexDigitChar (c.toNat / 16),
                           hexDigitChar (c.toNat % 16)] := by
                      simp [escChar, h1, h2, h3, h4, h5, h6, h7, hlt]
                    rw [hesc]
                    show parseStrChars
                      ('\\' :: 'u' :: '0' :: '0'
                        :: hexDigitChar (c.toNat / 16)
                        :: hexDigitChar (c.toNat % 16)
                        :: (cs.flatMap escChar ++ '"' :: rest)) = _
                    rw [parseStrChars_unicode
                        (hexVal_hexDigitChar (show c.toNat / 16 < 16 by omega))
                        (hexVal_hexDigitChar (show c.toNat % 16 < 16 by omega)),
                      ih]
                    have hchar : Char.ofNat
                        (0 * 4096 + 0 * 256 + c.toNat / 16 * 16 + c.toNat % 16)
                        = c := by
                      rw [show 0 * 4096 + 0 * 256 + c.toNat / 16 * 16
                          + c.toNat % 16 = c.toNat by omega]
                      exact Char.ofNat_toNat c
                    rw [hchar]
                    rfl
                  · have hesc : escChar c = [c] := by
                      simp [escChar, h1, h2, h3, h4, h5, h6, h7, hlt]
                    rw [hesc, List.singleton_append,
                      parseStrChars_cons_other h1 h2 hlt, ih]
                    rfl

/-! ## Round trip of array and object serialization through the parser -/

theorem parseValStep_serStr (p : List Char → Option (JsonVal × List Char))
    (s : String) (rest : List Char) :
    parseValStep p (serStr s ++ rest) = some (.str s, rest) := by
  have hshape : serStr s ++ rest
      = '"' :: (s.data.flatMap escChar ++ ('"' :: rest)) := by
    simp [serStr]
  rw [hshape]
  rw [show parseValStep p ('"' :: (s.data.flatMap escChar ++ ('"' :: rest)))
      = (parseStrChars (s.data.flatMap escChar ++ ('"' :: rest))).map
          (fun q => (JsonVal.str (String.mk q.1), q.2)) from rfl]
  rw [parseStrChars_escape]
  rfl

theorem parseElems_cons_eq (p : List Char → Option (JsonVal × List Char))
    (f : Nat) (acc : List JsonVal) (cs : List Char) :
    parseElems p (f + 1) acc cs
      = match p cs with
        | none => none
        | some (v, rest) =>
          match skipWs rest with
          | ',' :: r2 => parseElems p f (v :: acc) r2
          | ']' :: r2 => some ((v :: acc).reverse, r2)
          | _ => none := rfl

/-- The element loop on the serialization of a non-empty string array:
every element is parsed in order and the closing bracket ends the loop. -/
theorem parseElems_serElems (p : List Char → Option (JsonVal × List Char))
    (hp : ∀ (s : String) (r : List Char), p (serStr s ++ r) = some (.str s, r)) :
    ∀ (xs : List String) (x : String) (acc : List JsonVal) (rest : List Char)
      (fuel : Nat), xs.length < fuel →
      parseElems p fuel acc (serElems (x :: xs) ++ rest)
        = some (acc.reverse ++ (x :: xs).map JsonVal.str, rest) := by
  intro xs
  induction xs with
  | nil =>
    intro x acc rest fuel hf
    obtain ⟨f, rfl⟩ : ∃ f, fuel = f + 1 := ⟨fuel - 1, by omega⟩
    rw [show serElems [x] ++ rest = serStr x ++ (']' :: rest) by
      simp [serElems]]
    rw [parseElems_cons_eq, hp x (']' :: rest)]
    show some ((JsonVal.str x :: acc).reverse, rest) = _
    simp
  | cons y ys ih =>
    intro x acc rest fuel hf
    obtain ⟨f, rfl⟩ : ∃ f, fuel = f + 1 := ⟨fuel - 1, by omega⟩
    rw [show serElems (x :: y :: ys) ++ rest
        = serStr x ++ (',' :: (serElems (y :: ys) ++ rest)) by
      simp [serElems]]
    rw [parseElems_cons_eq, hp x (',' :: (serElems (y :: ys) ++ rest))]
    show parseElems p f (JsonVal.str x :: acc) (serElems (y :: ys) ++ rest) = _
    rw [ih y (JsonVal.str x :: acc) rest f
      (by simp only [List.length_cons] at hf ⊢; omega)]
    simp

theorem serElems_length_ge :
    ∀ (xs : List String) (x : String), xs.length + 1 ≤ (serElems (x :: xs)).length := by
  intro xs
  induction xs with
  | nil => intro x; simp [serElems]
  | cons y ys ih =>
    intro x
    have := ih y
    simp only [serElems, List.length_append, List.length_cons] at *
    omega

theorem parseValStep_serStrList (p : List Char → Option (JsonVal × List Char))
    (hp : ∀ (s : String) (r : List Char), p (serStr s ++ r) = some (.str s, r))
    (xs : List String) (rest : List Char) :
    parseValStep p (serStrList xs ++ rest) = some (.arr (xs.map .str), rest) := by
  match xs with
  | [] =>
    rw [show serStrList [] ++ rest = '[' :: (']' :: rest) by
      simp [serStrList, serElems]]
    rfl
  | x :: xs' =>
    rw [show serStrList (x :: xs') ++ rest
        = '[' :: (serElems (x :: xs') ++ rest) by simp [serStrList]]
    have hMex : ∃ M', serElems (x :: xs') ++ rest = '"' :: M' := by
      match xs' with
      | [] =>
        exact ⟨x.data.flatMap escChar ++ '"' :: ']' :: rest,
          by simp [serElems, serStr]⟩
      | y :: ys =>
        exact ⟨x.data.flatMap escChar ++ '"' :: ',' :: (serElems (y :: ys) ++ rest),
          by simp [serElems, serStr]⟩
    have hstep : parseValStep p ('[' :: (serElems (x :: xs') ++ rest))
        = (parseElems p ((serElems (x :: xs') ++ rest).length + 1) []
            (serElems (x :: xs') ++ rest)).map
              (fun q => (JsonVal.arr q.1, q.2)) := by
      obtain ⟨M', hM⟩ := hMex
      rw [hM]
      rfl
    rw [hstep]
    rw [parseElems_serElems p hp xs' x [] rest _ (by
      have h1 := serElems_length_ge xs' x
      simp only [List.length_append]
      omega)]
    simp

theorem parseMembers_cons_eq (p : List Char → Option (JsonVal × List Char))
    (f : Nat) (acc : List (String × JsonVal)) (cs : List Char) :
    parseMembers p (f + 1) acc cs
      = match skipWs cs with
        | '"' :: rest =>
          match parseStrChars rest with
          | none => none
          | some (kcs, r2) =>
            match skipWs r2 with
            | ':' :: r3 =>
              match p r3 with
              | none => none
              | some (v, r4) =>
                match skipWs r4 with
                | ',' :: r5 => parseMembers p f ((String.mk kcs, v) :: acc) r5
                | '\x7d' :: r5 => some (((String.mk kcs, v) :: acc).reverse, r5)
                | _ => none
            | _ => none
        | _ => none := rfl

/-- One member of a serialized object followed by a comma: the key, colon
and value are consumed and the loop continues with the member recorded. -/
theorem parseMembers_step (p : List Char → Option (JsonVal × List Char))
    {vtext : List Char} {v : JsonVal}
    (hv : ∀ r, p (vtext ++ r) = some (v, r)) (k : String) (f : Nat)
    (acc : List (String × JsonVal)) (rest : List Char) :
    parseMembers p (f + 1) acc (memberChars k vtext (',' :: rest))
      = parseMembers p f ((k, v) :: acc) rest := by
  have hshape : memberChars k vtext (',' :: rest)
      = '"' :: (k.data.flatMap escChar
          ++ ('"' :: (':' :: (vtext ++ (',' :: rest))))) := by
    simp [memberChars, serStr]
  rw [hshape, parseMembers_cons_eq]
  show (match parseStrChars (k.data.flatMap escChar
        ++ ('"' :: (':' :: (vtext ++ (',' :: rest))))) with
      | none => none
      | some (kcs, r2) =>
        match skipWs r2 with
        | ':' :: r3 =>
          match p r3 with
          | none => none
          | some (v', r4) =>
            match skipWs r4 with
            | ',' :: r5 => parseMembers p f ((String.mk kcs, v') :: acc) r5
            | '\x7d' :: r5 => some (((String.mk kcs, v') :: acc).reverse, r5)
            | _ => none
        | _ => none) = _
  rw [parseStrChars_escape]
  show (match p (vtext ++ (',' :: rest)) with
      | none => none
      | some (v', r4) =>
        match skipWs r4 with
        | ',' :: r5 => parseMembers p f ((String.mk k.data, v') :: acc) r5
        | '\x7d' :: r5 => some (((String.mk k.data, v') :: acc).reverse, r5)
        | _ => none) = _
  rw [hv]
  rfl

/-- The last member of a serialized object, followed by the closing brace:
the loop ends, returning the accumulated members in order. -/
theorem parseMembers_last (p : List Char → Option (JsonVal × List Char))
    {vtext : List Char} {v : JsonVal}
    (hv : ∀ r, p (vtext ++ r) = some (v, r)) (k : String) (f : Nat)
    (acc : List (String × JsonVal)) (rest : List Char) :
    parseMembers p (f + 1) acc (memberChars k vtext ('\x7d' :: rest))
      = some (((k, v) :: acc).reverse, rest) := by
  have hshape : memberChars k vtext ('\x7d' :: rest)
      = '"' :: (k.data.flatMap escChar
          ++ ('"' :: (':' :: (vtext ++ ('\x7d' :: rest))))) := by
    simp [memberChars, serStr]
  rw [hshape, parseMembers_cons_eq]
  show (match parseStrChars (k.data.flatMap escChar
        ++ ('"' :: (':' :: (vtext ++ ('\x7d' :: rest))))) with
      | none => none
      | some (kcs, r2) =>
        match skipWs r2 with
        | ':' :: r3 =>
          match p r3 with
          | none => none
          | some (v', r4) =>
            match skipWs r4 with
            | ',' :: r5 => parseMembers p f ((String.mk kcs, v') :: acc) r5
            | '\x7d' :: r5 => some (((String.mk kcs, v') :: acc).reverse, r5)
            | _ => none
        | _ => none) = _
  rw [parseStrChars_escape]
  show (match p (vtext ++ ('\x7d' :: rest)) with
      | none => none
      | some (v', r4) =>
        match skipWs r4 with
        | ',' :: r5 => parseMembers p f ((String.mk k.data, v') :: acc) r5
        | '\x7d' :: r5 => some (((String.mk k.data, v') :: acc).reverse, r5)
        | _ => none) = _
  rw [hv]
  rfl

/-! ## Round trip of the whole serialized recipe -/

theorem memberChars_length_ge (k : String) (vtext rest : List Char) :
    rest.length + 3 ≤ (memberChars k vtext rest).length := by
  simp only [memberChars, serStr, List.length_append, List.length_cons]
  omega

theorem memberChars_nested_length (k k' : String) (v v' t' : List Char) :
    6 ≤ (memberChars k v (',' :: memberChars k' v' t')).length := by
  have h1 := memberChars_length_ge k v (',' :: memberChars k' v' t')
  have h2 := memberChars_length_ge k' v' t'
  simp only [List.length_cons] at h1
  omega

theorem recipeMembersText_length (r : Recipe) (rest : List Char) :
    6 ≤ (recipeMembersText r rest).length := by
  unfold recipeMembersText
  exact memberChars_nested_length _ _ _ _ _

theorem recipeJsonChars_split (r : Recipe) (rest : List Char) :
    recipeJsonChars r ++ rest = '\x7b' :: recipeMembersText r rest := by
  simp [recipeJsonChars, recipeMembersText, memberChars, List.append_assoc]

theorem parseValStep_obj (p : List Char → Option (JsonVal × List Char))
    {M : List Char} (hM : ∃ M', M = '"' :: M') :
    parseValStep p ('\x7b' :: M)
      = (parseMembers p (M.length + 1) [] M).map
          (fun q => (JsonVal.obj q.1, q.2)) := by
  obtain ⟨M', rfl⟩ := hM
  rfl

/-- Parsing the serialized recipe object with any sufficient nesting fuel
recovers exactly the recipe's JSON value. -/
theorem parseVal_recipeJsonChars (r : Recipe) (n : Nat) (rest : List Char) :
    parseVal (n + 3) (recipeJsonChars r ++ rest)
      = some (recipeJsonVal r, rest) := by
  have hstr : ∀ (s : String) (rr : List Char),
      parseVal (n + 2) (serStr s ++ rr) = some (.str s, rr) :=
    fun s rr => parseValStep_serStr (parseVal (n + 1)) s rr
  have harr : ∀ (xs : List String) (rr : List Char),
      parseVal (n + 2) (serStrList xs ++ rr)
        = some (.arr (xs.map .str), rr) :=
    fun xs rr => parseValStep_serStrList (parseVal (n + 1))
      (fun s r' => parseValStep_serStr (parseVal n) s r') xs rr
  rw [recipeJsonChars_split]
  rw [show parseVal (n + 3) ('\x7b' :: recipeMembersText r rest)
      = parseValStep (parseVal (n + 2)) ('\x7b' :: recipeMembersText r rest)
      from rfl]
  rw [parseValStep_obj (parseVal (n + 2)) (M := recipeMembersText r rest)
    ⟨("name".data.flatMap escChar ++ ['"']) ++ (':' ::
        (serStr r.name ++ ',' ::
          memberChars "titleVariations" (serStrList r.titleVariations) (',' ::
            memberChars "servings" (serStr r.servings) (',' ::
              memberChars "prepTime" (serStr r.prepTime) (',' ::
                memberChars "cookTime" (serStr r.cookTime) (',' ::
                  memberChars "ingredients" (serStrList r.ingredients) (',' ::
                    memberChars "instructions" (serStrList r.instructions)
                      ('\x7d' :: rest)))))))),
      rfl⟩]
  obtain ⟨g, hg⟩ : ∃ g, (recipeMembersText r rest).length + 1 = g + 7 :=
    ⟨(recipeMembersText r rest).length - 6, by
      have := recipeMembersText_length r rest; omega⟩
  rw [hg]
  rw [show (recipeMembersText r rest : List Char)
      = memberChars "name" (serStr r.name) (',' ::
          memberChars "titleVariations" (serStrList r.titleVariations) (',' ::
            memberChars "servings" (serStr r.servings) (',' ::
              memberChars "prepTime" (serStr r.prepTime) (',' ::
                memberChars "cookTime" (serStr r.cookTime) (',' ::
                  memberChars "ingredients" (serStrList r.ingredients) (',' ::
                    memberChars "instructions" (serStrList r.instructions)
                      ('\x7d' :: rest))))))) from rfl]
  rw [show g + 7 = (g + 6) + 1 by omega,
    parseMembers_step _ (fun rr => hstr r.name rr) "name" (g + 6)]
  rw [show g + 6 = (g + 5) + 1 by omega,
    parseMembers_step _ (fun rr => harr r.titleVariations rr)
      "titleVariations" (g + 5)]
  rw [show g + 5 = (g + 4) + 1 by omega,
    parseMembers_step _ (fun rr => hstr r.servings rr) "servings" (g + 4)]
  rw [show g + 4 = (g + 3) + 1 by omega,
    parseMembers_step _ (fun rr => hstr r.prepTime rr) "prepTime" (g + 3)]
  rw [show g + 3 = (g + 2) + 1 by omega,
    parseMembers_step _ (fun rr => hstr r.cookTime rr) "cookTime" (g + 2)]
  rw [show g + 2 = (g + 1) + 1 by omega,
    parseMembers_step _ (fun rr => harr r.ingredients rr) "ingredients" (g + 1)]
  rw [show g + 1 = g + 1 from rfl,
    parseMembers_last _ (fun rr => harr r.instructions rr) "instructions" g]
  rfl

theorem jsonParse_recipeJsonChars (r : Recipe) :
    jsonParse (recipeJsonChars r) = some (recipeJsonVal r) := by
  have hsplit := recipeJsonChars_split r []
  rw [List.append_nil] at hsplit
  have hlen : 2 ≤ (recipeJsonChars r).length := by
    rw [hsplit, List.length_cons]
    have := recipeMembersText_length r []
    omega
  obtain ⟨n, hn⟩ : ∃ n, (recipeJsonChars r).length + 1 = n + 3 :=
    ⟨(recipeJsonChars r).length - 2, by omega⟩
  have h := parseVal_recipeJsonChars r n []
  rw [List.append_nil] at h
  unfold jsonParse
  rw [hn, h]
  rfl

/-! ## The validator accepts a well-formed recipe value -/

theorem validateRecipe_recipeJsonVal {r : Recipe} (h : wellFormedRecipe r) :
    validateRecipe (recipeJsonVal r) = .ok (recipeJsonVal r) := by
  obtain ⟨h1, h2, h3, h4, h5, h6, h7⟩ := h
  obtain ⟨tv, tvs, htv⟩ := List.exists_cons_of_ne_nil h5
  obtain ⟨ig, igs, hig⟩ := List.exists_cons_of_ne_nil h6
  obtain ⟨it, its, hit⟩ := List.exists_cons_of_ne_nil h7
  simp [validateRecipe, recipeJsonVal, requiredFields, jsIndex, jsLookup,
    jsFalsy, isNonEmptyArr, htv, hig, hit, h1, h2, h3, h4]

/-! ## The serialized recipe contains no backtick when its fields do not -/

theorem hexDigitChar_ne_tick {m : Nat} (h : m < 16) : hexDigitChar m ≠ tick := by
  interval_cases m <;> decide

theorem tick_notMem_escChar {c : Char} (hc : c ≠ tick) : tick ∉ escChar c := by
  unfold escChar
  split_ifs with e1 e2 e3 e4 e5 e6 e7 e8
  · decide
  · decide
  · decide
  · decide
  · decide
  · decide
  · decide
  · intro hmem
    simp only [List.mem_cons, List.not_mem_nil, or_false] at hmem
    rcases hmem with h | h | h | h | h | h
    · exact absurd h.symm (by decide)
    · exact absurd h.symm (by decide)
    · exact absurd h.symm (by decide)
    · exact absurd h.symm (by decide)
    · exact absurd h.symm (hexDigitChar_ne_tick (by omega))
    · exact absurd h.symm (hexDigitChar_ne_tick (by omega))
  · intro hmem
    simp only [List.mem_cons, List.not_mem_nil, or_false] at hmem
    exact hc hmem.symm

theorem tick_notMem_serStr {s : String} (hs : tick ∉ s.data) :
    tick ∉ serStr s := by
  intro hmem
  unfold serStr at hmem
  rcases List.mem_cons.mp hmem with h | h
  · exact absurd h.symm (by decide)
  · rcases List.mem_append.mp h with h | h
    · obtain ⟨c, hc, hmc⟩ := List.mem_flatMap.mp h
      exact tick_notMem_escChar (fun he => hs (he ▸ hc)) hmc
    · simp only [List.mem_singleton] at h
      exact absurd h.symm (by decide)

theorem tick_notMem_serElems {xs : List String}
    (hs : ∀ s ∈ xs, tick ∉ s.data) : ∀ (x : String), tick ∉ x.data →
    tick ∉ serElems (x :: xs) := by
  induction xs with
  | nil =>
    intro x hx hmem
    unfold serElems at hmem
    rcases List.mem_append.mp hmem with h | h
    · exact tick_notMem_serStr hx h
    · simp only [List.mem_singleton] at h
      exact absurd h.symm (by decide)
  | cons y ys ih =>
    intro x hx hmem
    unfold serElems at hmem
    rcases List.mem_append.mp hmem with h | h
    · exact tick_notMem_serStr hx h
    · rcases List.mem_cons.mp h with h | h
      · exact absurd h.symm (by decide)
      · exact ih (fun s hsmem => hs s (List.mem_cons_of_mem y hsmem)) y
          (hs y (List.mem_cons_self y ys)) h

theorem tick_notMem_serStrList {xs : List String}
    (hs : ∀ s ∈ xs, tick ∉ s.data) : tick ∉ serStrList xs := by
  intro hmem
  unfold serStrList at hmem
  rcases List.mem_cons.mp hmem with h | h
  · exact absurd h.symm (by decide)
  · match xs with
    | [] =>
      unfold serElems at h
      simp only [List.mem_singleton] at h
      exact absurd h.symm (by decide)
    | x :: xs' =>
      exact tick_notMem_serElems
        (fun s hsmem => hs s (List.mem_cons_of_mem x hsmem)) x
        (hs x (List.mem_cons_self x xs')) h

theorem tick_notMem_memberChars {k : String} {v t : List Char}
    (hk : tick ∉ serStr k) (hv : tick ∉ v) (ht : tick ∉ t) :
    tick ∉ memberChars k v t := by
  intro hmem
  unfold memberChars at hmem
  rcases List.mem_append.mp hmem with h | h
  · exact hk h
  · rcases List.mem_cons.mp h with h | h
    · exact absurd h.symm (by decide)
    · rcases List.mem_append.mp h with h | h
      · exact hv h
      · exact ht h

theorem recipeJsonChars_tickFree {r : Recipe} (h : recipeTickFree r) :
    tick ∉ recipeJsonChars r := by
  obtain ⟨h1, h2, h3, h4, h5, h6, h7⟩ := h
  intro hmem
  unfold recipeJsonChars at hmem
  rcases List.mem_cons.mp hmem with h | h
  · exact absurd h.symm (by decide)
  · refine absurd h (tick_notMem_memberChars (by decide)
      (tick_notMem_serStr h1) ?_)
    intro h
    rcases List.mem_cons.mp h with h | h
    · exact absurd h.symm (by decide)
    · refine absurd h (tick_notMem_memberChars (by decide)
        (tick_notMem_serStrList h5) ?_)
      intro h
      rcases List.mem_cons.mp h with h | h
      · exact absurd h.symm (by decide)
      · refine absurd h (tick_notMem_memberChars (by decide)
          (tick_notMem_serStr h2) ?_)
        intro h
        rcases List.mem_cons.mp h with h | h
        · exact absurd h.symm (by decide)
        · refine absurd h (tick_notMem_memberChars (by decide)
            (tick_notMem_serStr h3) ?_)
          intro h
          rcases List.mem_cons.mp h with h | h
          · exact absurd h.symm (by decide)
          · refine absurd h (tick_notMem_memberChars (by decide)
              (tick_notMem_serStr h4) ?_)
            intro h
            rcases List.mem_cons.mp h with h | h
            · exact absurd h.symm (by decide)
            · refine absurd h (tick_notMem_memberChars (by decide)
                (tick_notMem_serStrList h6) ?_)
              intro h
              rcases List.mem_cons.mp h with h | h
              · exact absurd h.symm (by decide)
              · refine absurd h (tick_notMem_memberChars (by decide)
                  (tick_notMem_serStrList h7) ?_)
                intro h
                simp only [List.mem_singleton] at h
                exact absurd h.symm (by decide)

theorem getLast?_memberChars {t : List Char} {c : Char}
    (ht : t.getLast? = some c) (k : String) (v : List Char) :
    (memberChars k v t).getLast? = some c := by
  have hassoc : memberChars k v t = (serStr k ++ [':'] ++ v) ++ t := by
    simp [memberChars]
  rw [hassoc, List.getLast?_append, ht]
  rfl

theorem getLast?_comma_cons {X : List Char} {c : Char}
    (h : X.getLast? = some c) : ((',' :: X : List Char)).getLast? = some c := by
  have hsplit : (',' :: X : List Char) = [','] ++ X := by simp
  rw [hsplit, List.getLast?_append, h]
  rfl

theorem recipeJsonChars_getLast? (r : Recipe) :
    (recipeJsonChars r).getLast? = some '\x7d' := by
  have hsplit := recipeJsonChars_split r []
  rw [List.append_nil] at hsplit
  rw [hsplit]
  have hM : (recipeMembersText r []).getLast? = some '\x7d' := by
    unfold recipeMembersText
    have g7 : (memberChars "instructions" (serStrList r.instructions)
        ('\x7d' :: ([] : List Char))).getLast? = some '\x7d' :=
      getLast?_memberChars (by rfl) _ _
    have g6 := getLast?_memberChars (getLast?_comma_cons g7)
      "ingredients" (serStrList r.ingredients)
    have g5 := getLast?_memberChars (getLast?_comma_cons g6)
      "cookTime" (serStr r.cookTime)
    have g4 := getLast?_memberChars (getLast?_comma_cons g5)
      "prepTime" (serStr r.prepTime)
    have g3 := getLast?_memberChars (getLast?_comma_cons g4)
      "servings" (serStr r.servings)
    have g2 := getLast?_memberChars (getLast?_comma_cons g3)
      "titleVariations" (serStrList r.titleVariations)
    exact getLast?_memberChars (getLast?_comma_cons g2) "name" (serStr r.name)
  rw [show ('\x7b' :: recipeMembersText r [])
      = ['\x7b'] ++ recipeMembersText r [] from rfl, List.getLast?_append, hM]
  rfl

/-! ## Claim C4: the serialization round trip -/

set_option maxRecDepth 16000 in
set_option maxHeartbeats 1000000 in
/-- Claim C4 as stated is false: a well-formed recipe whose name consists
of backticks does not survive the round trip — the sanitizer strips the
backticks out of the serialized string literal, leaving an empty name that
the validator reports as a missing field. -/
theorem claim_C4_counterexample :
    wellFormedRecipe rBacktick ∧
    recipeValidator (cleanResponse (fenceWrap (recipeJsonString rBacktick)))
      ≠ Except.ok (recipeJsonVal rBacktick) := by
  refine ⟨by decide, ?_⟩
  intro hcontra
  rw [show recipeValidator (cleanResponse (fenceWrap (recipeJsonString rBacktick)))
      = .error (.missingFields ["name"]) from rfl] at hcontra
  exact Except.noConfusion hcontra

/-- Claim C4, amended: every well-formed recipe none of whose strings
contains a backtick character, serialized to JSON, wrapped in Markdown
code fences, sanitized and re-parsed by the RecipeValidator, is returned
unchanged (as its JSON value) with no coercion of field values. -/
theorem claim_C4_round_trip_amended (r : Recipe) (hwf : wellFormedRecipe r)
    (htf : recipeTickFree r) :
    recipeValidator (cleanResponse (fenceWrap (recipeJsonString r)))
      = .ok (recipeJsonVal r) := by
  have hclean : cleanChars (fenceJsonNl ++ recipeJsonChars r ++ nlFence)
      = recipeJsonChars r :=
    cleanChars_fenceWrap_json (recipeJsonChars_tickFree htf)
      ⟨recipeMembersText r [], by
        have hsp := recipeJsonChars_split r []
        rwa [List.append_nil] at hsp⟩
      (recipeJsonChars_getLast? r)
  show recipeValidator
      (String.mk (cleanChars (fenceJsonNl ++ recipeJsonChars r ++ nlFence))) = _
  rw [hclean]
  show (match jsonParse (recipeJsonChars r) with
      | none => Except.error RecipeError.malformedJson
      | some v => validateRecipe v) = _
  rw [jsonParse_recipeJsonChars]
  exact validateRecipe_recipeJsonVal hwf

set_option maxRecDepth 16000 in
set_option maxHeartbeats 1000000 in
/-- Witness: the amended C4 round trip applied to the spec's example
recipe. -/
theorem claim_C4_witness :
    wellFormedRecipe rPancakes ∧ recipeTickFree rPancakes ∧
    recipeValidator (cleanResponse (fenceWrap (recipeJsonString rPancakes)))
      = .ok (recipeJsonVal rPancakes) :=
  ⟨by decide, by decide,
    claim_C4_round_trip_amended rPancakes (by decide) (by decide)⟩

end WPRecipe
